import Mathlib

set_option maxHeartbeats 1000000

/-!
Verification of the stencil-array decomposition and worker fabric.

The first part embeds src/enzyme/symbolic_value.py: the symbolic DAG of
stencil-array values as an arena indexed by Fin n (producer references always
point to earlier values, which is how Python object construction guarantees
acyclicity), value discovery, topological sorting, atomic stages and the
decomposer.  The external graph partitioner is a subprocess; its output is
modelled as the two integer columns c and d.

The second part embeds src/mpi_worker_commander.py: worker-side result storage
with halo exchange, the kwargs substitution, and the commander's tile ranges.
-/

namespace Enzyme

/-- An input of an operation: either a reference to another symbolic value of
the arena, or a plain non-Value constant that the evaluator passes through
unchanged (a non-Value argument fails the attribute test of _is_like_sa_value
in src/enzyme/symbolic_value.py and is left as-is). -/
inductive Arg (n : Nat) where
  | value (j : Fin n)
  | const (c : Int)
deriving DecidableEq

/-- An operation producing one value: the code requires the owner object to
expose inputs, access_neighbor and perform. -/
structure Op (n : Nat) where
  inputs : List (Arg n)
  access_neighbor : Bool
  perform : List Int → Int

/-- The symbolic DAG: an arena of n stencil-array values, each with an optional
owner operation.  A value with no owner is an independent (source-like) value.
Producer inputs always reference strictly earlier values. -/
structure DAG (n : Nat) where
  owner : Fin n → Option (Op n)
  acyclic : ∀ v op_, owner v = some op_ → ∀ j, Arg.value j ∈ op_.inputs → j.val < v.val

variable {n : Nat}

/-- Worklist form of discover_values_from (src/enzyme/symbolic_value.py line 70).
The stack holds the pending arguments exactly in the order the Python recursion
visits them (the inputs of a newly discovered value are pushed in front of the
remaining work), so the discovered and tributary lists grow in the same order
as in the source.  State: (discovered internal values, tributary values). -/
def discoverLoop (g : DAG n) (srcs : List (Fin n)) :
    List (Arg n) → List (Fin n) × List (Fin n) → List (Fin n) × List (Fin n)
  | [], st => st
  | Arg.const _ :: rest, st => discoverLoop g srcs rest st
  | Arg.value v :: rest, st =>
    if v ∈ srcs then discoverLoop g srcs rest st
    else
      match g.owner v with
      | none =>
        if v ∈ st.2 then discoverLoop g srcs rest st
        else discoverLoop g srcs rest (st.1, st.2 ++ [v])
      | some op_ =>
        if hv : v ∈ st.1 then discoverLoop g srcs rest st
        else discoverLoop g srcs (op_.inputs ++ rest) (st.1 ++ [v], st.2)
termination_by wl st => ((Finset.univ.filter (fun x : Fin n => x ∉ st.1)).card, wl.length)
decreasing_by
  all_goals first
    | (apply Prod.Lex.right; simp)
    | · apply Prod.Lex.left
        apply Finset.card_lt_card
        have hsub : Finset.univ.filter (fun x : Fin n => x ∉ st.1 ++ [v]) ⊆
            Finset.univ.filter (fun x : Fin n => x ∉ st.1) := by
          intro x hx
          simp only [Finset.mem_filter, Finset.mem_univ, true_and, List.mem_append,
            List.mem_singleton, not_or] at hx ⊢
          exact hx.1
        rw [Finset.ssubset_iff_of_subset hsub]
        refine ⟨v, ?_, ?_⟩
        · simp only [Finset.mem_filter, Finset.mem_univ, true_and]
          exact hv
        · simp only [Finset.mem_filter, Finset.mem_univ, true_and, List.mem_append,
            List.mem_singleton, not_or, not_and, not_not]
          intro _
          trivial

/-- discover_values (src/enzyme/symbolic_value.py line 67): walk producers from
every sink, skipping formal sources, collecting unowned values as tributaries
and owned values as internal, each at most once, in visit order. -/
def discover_values (g : DAG n) (srcs sinks : List (Fin n)) :
    List (Fin n) × List (Fin n) :=
  discoverLoop g srcs (sinks.map Arg.value) ([], [])

/-- is_computable from sort_values (src/enzyme/symbolic_value.py line 87): a
non-Value input is always computable; a value is computable once sorted, or
when it has no owner. -/
def is_computable (g : DAG n) (srt : List (Fin n)) : Arg n → Bool
  | Arg.const _ => true
  | Arg.value j => decide (j ∈ srt) || (g.owner j).isNone

/-- Readiness of one unsorted value: every input of its owner is computable
(src/enzyme/symbolic_value.py line 94).  Unsorted values always have an owner;
the none branch is unreachable there. -/
def readyB (g : DAG n) (srt : List (Fin n)) (v : Fin n) : Bool :=
  match g.owner v with
  | some op_ => op_.inputs.all (is_computable g srt)
  | none => true

/-- One pass of the while-loop body of sort_values (src/enzyme/symbolic_value.py
line 92).  The source removes elements from the list it iterates over; the
CPython list iterator keeps a position index, so removing the current element
makes the following element be skipped for this pass.  The index i is that
iterator position. -/
def sortPassAux (g : DAG n) (srt l : List (Fin n)) (i : Nat) (removedAny : Bool) :
    List (Fin n) × List (Fin n) × Bool :=
  if h : i < l.length then
    if readyB g srt (l.get ⟨i, h⟩) then
      sortPassAux g (srt ++ [l.get ⟨i, h⟩]) (l.eraseIdx i) (i + 1) true
    else
      sortPassAux g srt l (i + 1) removedAny
  else (srt, l, removedAny)
termination_by l.length - i
decreasing_by
  · have : (l.eraseIdx i).length = l.length - 1 := by
      rw [List.length_eraseIdx]
      simp [h]
    omega
  · omega

/-- The while-loop of sort_values (src/enzyme/symbolic_value.py line 91): run
passes while the unsorted list is non-empty; a pass that removes no element
trips the progress assertion (modelled as none).  The fuel counts the remaining
passes; every productive pass removes at least one element, so fuel equal to
the length of the unsorted list is never exhausted. -/
def sortLoop (g : DAG n) : Nat → List (Fin n) → List (Fin n) → Option (List (Fin n))
  | _, srt, [] => some srt
  | 0, _, _ :: _ => none
  | fuel + 1, srt, v :: l =>
    match sortPassAux g srt (v :: l) 0 false with
    | (srt2, l2, true) => sortLoop g fuel srt2 l2
    | (_, _, false) => none

/-- sort_values (src/enzyme/symbolic_value.py line 86). -/
def sort_values (g : DAG n) (srt l : List (Fin n)) : Option (List (Fin n)) :=
  sortLoop g l.length srt l

/-- Immutable compact stage (src/enzyme/symbolic_value.py line 100). -/
structure AtomicStage (n : Nat) where
  source_values : List (Fin n)
  triburary_values : List (Fin n)
  sorted_values : List (Fin n)
  sink_values : List (Fin n)

/-- AtomicStage.__init__ (src/enzyme/symbolic_value.py line 104): discover, then
topologically sort the discovered values starting from a copy of the sources;
a sort that cannot make progress fails.  On success the sorted list starts with
the sources, which are split back off. -/
def AtomicStage.make (g : DAG n) (source_values sink_values : List (Fin n)) :
    Option (AtomicStage n) :=
  match sort_values g source_values (discover_values g source_values sink_values).1 with
  | none => none
  | some sortedAll =>
    some { source_values := sortedAll.take source_values.length
           triburary_values := (discover_values g source_values sink_values).2
           sorted_values := sortedAll.drop source_values.length
           sink_values := sink_values }

/-- Symbol table of a stage invocation: the _tmp attribute of each value, when
assigned. -/
abbrev Table (n : Nat) := Fin n → Option Int

/-- Evaluate a list elementwise through a fallible map, failing as soon as one
element fails: the option-valued form of a Python list comprehension whose body
may raise. -/
def mapOpt {α β : Type} (f : α → Option β) : List α → Option (List β)
  | [] => some []
  | a :: l =>
    match f a with
    | none => none
    | some b =>
      match mapOpt f l with
      | none => none
      | some r => some (b :: r)

/-- The _tmp lambda of AtomicStage.__call__ (src/enzyme/symbolic_value.py line
131): a value input reads its _tmp attribute, failing when it is absent; a
non-Value input passes through unchanged. -/
def substInput (t : Table n) : Arg n → Option Int
  | Arg.const c => some c
  | Arg.value j => t j

/-- The zip-assignment loop of AtomicStage.__call__ (lines 127-129): each formal
source and tributary value receives its concrete counterpart; a value that
already has a _tmp attribute trips the assertion.  zip stops at the shorter
list. -/
def assignAll : List (Fin n) → List Int → Table n → Option (Table n)
  | [], _, t => some t
  | _ :: _, [], t => some t
  | v :: vs, x :: xs, t =>
    if (t v).isSome then none
    else assignAll vs xs (Function.update t v (some x))

/-- The evaluation loop of AtomicStage.__call__ (lines 132-135): in sorted
order, check the value has no _tmp attribute yet, evaluate its owner on the
substituted inputs, and record the result.  A sorted value without an owner
would fail on the attribute access (none). -/
def evalSorted (g : DAG n) : List (Fin n) → Table n → Option (Table n)
  | [], t => some t
  | v :: vs, t =>
    if (t v).isSome then none
    else
      match g.owner v with
      | none => none
      | some op_ =>
        match mapOpt (substInput t) op_.inputs with
        | none => none
        | some ins => evalSorted g vs (Function.update t v (some (op_.perform ins)))

/-- AtomicStage.__call__ (src/enzyme/symbolic_value.py line 114): check the
source count, substitute concrete sources and tributary values, evaluate the
internal values in topological order, and extract the sink results.  The
tributary resolver is modelled as a total map: both a callable and an indexable
resolver supply one concrete number per tributary value. -/
def AtomicStage.call (g : DAG n) (st : AtomicStage n) (source_values : List Int)
    (triburary : Fin n → Int) : Option (List Int) :=
  if st.source_values.length = source_values.length then
    match assignAll (st.source_values ++ st.triburary_values)
        (source_values ++ st.triburary_values.map triburary) (fun _ => none) with
    | none => none
    | some t0 =>
      match evalSorted g st.sorted_values t0 with
      | none => none
      | some t1 => mapOpt t1 st.sink_values
  else none

/-- numpy max of an integer partitioner column over the rows 0 .. m-1, one row
per vertex of all_values (src/enzyme/symbolic_value.py line 185); m = 0 never
reaches this computation. -/
def colMax (d : Nat → Int) : Nat → Int
  | 0 => 0
  | m + 1 => if m = 0 then d 0 else max (colMax d m) (d m)

/-- The create_stage or discard_stage attribute read back in decompose: lines
186-188 of src/enzyme/symbolic_value.py assign column entry i to the value at
row i of all_values, a later row overwriting an earlier one.  Values outside
all_values never reach this lookup. -/
def attrOf (all : List (Fin n)) (col : Nat → Int) (v : Fin n) : Int :=
  match (all.enum.filter (fun p => decide (p.2 = v))).getLast? with
  | some p => col p.1
  | none => 0

/-- The stage-output comprehension of decompose (src/enzyme/symbolic_value.py
line 192): keep, in the order of all_values, every value created at or before
stage k and discarded strictly after it. -/
def stageFilter (all : List (Fin n)) (c d : Nat → Int) (k : Int) : List (Fin n) :=
  all.filter (fun v => decide (attrOf all c v ≤ k) && decide (k < attrOf all d v))

/-- The stage-emission loop of decompose (src/enzyme/symbolic_value.py lines
190-195): for k = 1 .. num_stages - 1 build a stage from the running source
list to the values alive across the stage-k boundary; cnt counts the remaining
iterations.  Returns the emitted stages and the final running source list. -/
def buildMiddle (g : DAG n) (all : List (Fin n)) (c d : Nat → Int) :
    List (Fin n) → Int → Nat → Option (List (AtomicStage n) × List (Fin n))
  | src, _, 0 => some ([], src)
  | src, k, cnt + 1 =>
    match AtomicStage.make g src (stageFilter all c d k) with
    | none => none
    | some st =>
      match buildMiddle g all c d (stageFilter all c d k) (k + 1) cnt with
      | none => none
      | some (l, lastSrc) => some (st :: l, lastSrc)

/-- decompose (src/enzyme/symbolic_value.py line 180), with the output of the
external partitioner subprocess supplied as the two integer columns c and d
(column e is unused by the code).  numpy max over an empty column is an error,
covered by the isEmpty guard. -/
def decompose (g : DAG n) (source_values sink_values : List (Fin n))
    (c d : Nat → Int) : Option (List (AtomicStage n)) :=
  let values := (discover_values g source_values sink_values).1
  let all_values := values ++ source_values
  if all_values.isEmpty then none
  else
    let num_stages := colMax d all_values.length
    match buildMiddle g all_values c d source_values 1 (num_stages - 1).toNat with
    | none => none
    | some (mid, lastSrc) =>
      match AtomicStage.make g lastSrc sink_values with
      | none => none
      | some st => some (mid ++ [st])

/-- The create_stage and discard_stage attributes left on each value by a run
of decompose: lines 186-188 of src/enzyme/symbolic_value.py assign them for
every row of all_values, a later row overwriting an earlier one, and no code
ever deletes them. -/
def decomposeAttrs (g : DAG n) (source_values sink_values : List (Fin n))
    (c d : Nat → Int) : Fin n → Option (Int × Int) :=
  fun v =>
    match (((discover_values g source_values sink_values).1
        ++ source_values).enum.filter (fun p => decide (p.2 = v))).getLast? with
    | some p => some (c p.1, d p.1)
    | none => none

/-- Direct single-pass denotation of the DAG: each owned value is its owner's
perform applied to the denotations of the inputs, each unowned value reads the
environment.  This is the reference semantics the stage pipeline is compared
against. -/
def evalDAG (g : DAG n) (env : Fin n → Int) (v : Fin n) : Int :=
  match h : g.owner v with
  | none => env v
  | some op_ =>
    op_.perform (op_.inputs.attach.map (fun x =>
      match x with
      | ⟨Arg.const cv, _⟩ => cv
      | ⟨Arg.value j, hj⟩ => evalDAG g env j))
termination_by v.val
decreasing_by exact g.acyclic v op_ h j hj

/-- Denotation of an operation input. -/
def evalArg (g : DAG n) (env : Fin n → Int) : Arg n → Int
  | Arg.const cv => cv
  | Arg.value j => evalDAG g env j

/-- Sequential stage execution: pipe each stage's output tuple in as the next
stage's concrete sources, resolving tributaries with env throughout. -/
def runStages (g : DAG n) : List (AtomicStage n) → List Int → (Fin n → Int) →
    Option (List Int)
  | [], xs, _ => some xs
  | st :: rest, xs, env =>
    match st.call g xs env with
    | none => none
    | some out => runStages g rest out env

/-- Membership in the closure of a stage: a value reachable from the sinks by
walking producer inputs without crossing a formal source. -/
inductive InClosure (g : DAG n) (srcs sinks : List (Fin n)) : Fin n → Prop
  | sink : ∀ v, v ∈ sinks → InClosure g srcs sinks v
  | step : ∀ w op_ v, InClosure g srcs sinks w → w ∉ srcs →
      g.owner w = some op_ → Arg.value v ∈ op_.inputs → InClosure g srcs sinks v

end Enzyme

namespace Fabric

/-- A numpy ndarray: a shape and an index function for the entries.  The claims
about the worker inspect shapes, the interior copy and the halo fill, so entry
type Int suffices. -/
structure NArray where
  shape : List Nat
  data : List Nat → Int

/-- ndim of an array. -/
def NArray.ndim (a : NArray) : Nat := a.shape.length

/-- A Python value flowing through _update_result: an ndarray, a tuple, or any
other (scalar-like) object. -/
inductive PyVal where
  | array (a : NArray)
  | tup (xs : List PyVal)
  | scalar (x : Int)

/-- A result_var argument: None, a WorkerVariable handle, or a tuple of these. -/
inductive ResultVar where
  | noneVar
  | wv (key : String)
  | tup (vs : List ResultVar)

/-- An argument of a worker task: a WorkerVariable handle, an array, or any
other object. -/
inductive PyArg where
  | wv (key : String)
  | arr (a : NArray)
  | other (x : Int)

/-- Worker-side state relevant to the claims: the coordinate arrays i and j and
the keyed variables store, field vars (src/mpi_worker_commander.py line 56). -/
structure Worker where
  i : NArray
  j : NArray
  vars : String → Option NArray

/-- Failure kinds of the modelled worker code paths: the leading-shape
assertion of _update_result (the ShapeError of the specification), the other
assertions, and the unbound name of _substitute_kwargs. -/
inductive Err where
  | shapeError
  | assertionError
  | nameError
deriving DecidableEq

/-- ni of the worker tile: i.shape[0] - 2 (src/mpi_worker_commander.py line
120). -/
def Worker.ni (w : Worker) : Nat := w.i.shape.headD 0 - 2

/-- nj of the worker tile: i.shape[1] - 2 (src/mpi_worker_commander.py line
120). -/
def Worker.nj (w : Worker) : Nat := w.i.shape.getD 1 0 - 2

/-- The four strips received during halo exchange, one entry per position along
the edge and trailing index; they come from the neighbor workers and are
external input to _update_result_neighbor. -/
structure Recv where
  xm : List Nat → Int
  xp : List Nat → Int
  ym : List Nat → Int
  yp : List Nat → Int

/-- _update_result_neighbor (src/mpi_worker_commander.py line 130): allocate a
padded array of ones, copy the interior, then receive into the four one-cell
edge strips; rows 0 and ni+1 receive columns 1 .. nj, columns 0 and nj+1
receive rows 1 .. ni, and no write ever touches the four corners.  The nested
conditionals follow the write order of the source, later writes taking
precedence; the written regions are pairwise disjoint. -/
def update_result_neighbor (r : NArray) (recv : Recv) : NArray :=
  let ni := r.shape.headD 0
  let nj := r.shape.getD 1 0
  { shape := (ni + 2) :: (nj + 2) :: r.shape.drop 2
    data := fun idx =>
      match idx with
      | i :: j :: rest =>
        if i = 0 ∧ 1 ≤ j ∧ j ≤ nj then recv.xm ((j - 1) :: rest)
        else if i = ni + 1 ∧ 1 ≤ j ∧ j ≤ nj then recv.xp ((j - 1) :: rest)
        else if j = 0 ∧ 1 ≤ i ∧ i ≤ ni then recv.ym ((i - 1) :: rest)
        else if j = nj + 1 ∧ 1 ≤ i ∧ i ≤ ni then recv.yp ((i - 1) :: rest)
        else if 1 ≤ i ∧ i ≤ ni ∧ 1 ≤ j ∧ j ≤ nj then r.data ((i - 1) :: (j - 1) :: rest)
        else 1
      | _ => 1 }

/-- Store an array under a key of the worker variables dictionary. -/
def Worker.store (w : Worker) (key : String) (a : NArray) : Worker :=
  { w with vars := fun s => if s = key then some a else w.vars s }

mutual

/-- _update_result (src/mpi_worker_commander.py line 111): a tuple result key
requires a tuple result of equal length and recurses elementwise; a None key
returns the raw result without storing; a single WorkerVariable key stores an
ndarray of rank at least 2, as-is when its leading dims carry the halo, after
halo exchange when they match the bare tile, and fails on any other leading
shape. -/
def update_result (w : Worker) (recv : Recv) :
    PyVal → ResultVar → Except Err (Worker × Option PyVal)
  | result, ResultVar.tup vs =>
    match result with
    | PyVal.tup xs =>
      if xs.length = vs.length then updateResultList w recv xs vs
      else Except.error Err.assertionError
    | _ => Except.error Err.assertionError
  | result, ResultVar.wv key =>
    match result with
    | PyVal.array a =>
      if 2 ≤ a.ndim then
        if a.shape.headD 0 = w.ni + 2 ∧ a.shape.getD 1 0 = w.nj + 2 then
          Except.ok (w.store key a, none)
        else if a.shape.headD 0 = w.ni ∧ a.shape.getD 1 0 = w.nj then
          Except.ok (w.store key (update_result_neighbor a recv), none)
        else Except.error Err.shapeError
      else Except.error Err.assertionError
    | _ => Except.error Err.assertionError
  | result, ResultVar.noneVar => Except.ok (w, some result)

/-- The elementwise recursion of _update_result over zipped tuples, threading
the worker variables store. -/
def updateResultList (w : Worker) (recv : Recv) :
    List PyVal → List ResultVar → Except Err (Worker × Option PyVal)
  | [], _ => Except.ok (w, none)
  | _ :: _, [] => Except.ok (w, none)
  | x :: xs, v :: vs =>
    match update_result w recv x v with
    | Except.error e => Except.error e
    | Except.ok (w2, _) => updateResultList w2 recv xs vs

end

/-- _substitute_kwargs as written (src/mpi_worker_commander.py line 103): the
loop body tests is_worker_variable(arg), but no name arg is bound in that
scope, so the first iteration over a non-empty mapping raises NameError; an
empty mapping skips the loop and is returned unchanged. -/
def substitute_kwargs (_w : Worker) (kwargs : List (String × PyArg)) :
    Except Err (List (String × PyArg)) :=
  match kwargs with
  | [] => Except.ok kwargs
  | _ :: _ => Except.error Err.nameError

/-- Round half to even, the rounding of numpy around (and of Python round). -/
def roundHalfEven (x : ℚ) : ℤ :=
  if x - ⌊x⌋ < 1/2 then ⌊x⌋
  else if 1/2 < x - ⌊x⌋ then ⌊x⌋ + 1
  else if Even ⌊x⌋ then ⌊x⌋ else ⌊x⌋ + 1

/-- The rounded boundary column of MPI_Commander._i_ranges
(src/mpi_worker_commander.py line 276): entry p is ni / niProc * p rounded half
to even.  The source computes the quotient in floating point; it is modelled
exactly over the rationals. -/
def iRangesSeq (ni niProc : Nat) (p : Nat) : ℤ :=
  roundHalfEven ((ni : ℚ) / (niProc : ℚ) * (p : ℚ))

/-- MPI_Commander._i_ranges (src/mpi_worker_commander.py line 274): the tuple
of consecutive pairs of the rounded range boundaries. -/
def i_ranges (ni niProc : Nat) : List (ℤ × ℤ) :=
  (List.range niProc).map (fun p => (iRangesSeq ni niProc p, iRangesSeq ni niProc (p + 1)))

end Fabric


/-! Concrete example instances used by the witness theorems. -/

namespace Fabric

/-- Example coordinate array: a 3 by 3 interior tile with its one-cell halo. -/
def exI : NArray := NArray.mk [5, 5] (fun _ => 0)

/-- Example worker with interior tile dims (3, 3) and an empty variables
store. -/
def exWorker : Worker := Worker.mk exI exI (fun _ => none)

/-- Example received halo strips. -/
def exRecv : Recv := Recv.mk (fun _ => 7) (fun _ => 7) (fun _ => 7) (fun _ => 7)

end Fabric

namespace Enzyme

/-- Example three-value DAG: value 0 is an independent source, value 1 adds one
to it, value 2 (a stencil op) doubles value 1. -/
def exDAG : DAG 3 where
  owner := fun v =>
    match v with
    | ⟨0, _⟩ => none
    | ⟨1, _⟩ => some { inputs := [Arg.value ⟨0, by omega⟩], access_neighbor := false,
                       perform := fun xs => xs.headD 0 + 1 }
    | ⟨2, _⟩ => some { inputs := [Arg.value ⟨1, by omega⟩], access_neighbor := true,
                       perform := fun xs => xs.headD 0 * 2 }
  acyclic := by
    intro v op_ h j hj
    match v with
    | ⟨0, _⟩ => simp at h
    | ⟨1, _⟩ =>
      simp only [Option.some.injEq] at h
      subst h
      simp only [List.mem_singleton, Arg.value.injEq] at hj
      subst hj
      exact Nat.zero_lt_one
    | ⟨2, _⟩ =>
      simp only [Option.some.injEq] at h
      subst h
      simp only [List.mem_singleton, Arg.value.injEq] at hj
      subst hj
      exact Nat.one_lt_two

/-- Example single-value DAG: one independent value. -/
def exDAG1 : DAG 1 where
  owner := fun _ => none
  acyclic := by
    intro v op_ h
    simp at h

end Enzyme

/-! Worker-side claims. -/

namespace Fabric

/-- C10: halo-exchange padding.  For an input array with leading shape (a, b),
_update_result_neighbor returns an array of shape (a+2, b+2) plus the trailing
dims, whose interior equals the input exactly and whose four corner halo cells
always hold the fill value 1: the receives populate only the edge strips. -/
theorem C10_halo_padding (r : NArray) (recv : Recv) (a b : Nat) (rest : List Nat)
    (hsh : r.shape = a :: b :: rest) :
    (update_result_neighbor r recv).shape = (a + 2) :: (b + 2) :: rest ∧
    (∀ i j idx, i < a → j < b →
      (update_result_neighbor r recv).data ((i + 1) :: (j + 1) :: idx) =
        r.data (i :: j :: idx)) ∧
    (∀ idx, (update_result_neighbor r recv).data (0 :: 0 :: idx) = 1 ∧
      (update_result_neighbor r recv).data (0 :: (b + 1) :: idx) = 1 ∧
      (update_result_neighbor r recv).data ((a + 1) :: 0 :: idx) = 1 ∧
      (update_result_neighbor r recv).data ((a + 1) :: (b + 1) :: idx) = 1) := by
  refine ⟨?_, ?_, ?_⟩
  · simp [update_result_neighbor, hsh]
  · intro i j idx hi hj
    simp only [update_result_neighbor, hsh, List.headD_cons, List.getD_cons_succ,
      List.getD_cons_zero]
    split_ifs <;> first | rfl | (exfalso ; omega) | (exfalso ; simp_all)
  · intro idx
    refine ⟨?_, ?_, ?_, ?_⟩ <;>
      · simp only [update_result_neighbor, hsh, List.headD_cons, List.getD_cons_succ,
          List.getD_cons_zero]
        split_ifs <;> first | rfl | (exfalso ; omega) | (exfalso ; simp_all)

/-- C10 witness: the padding theorem applied to a concrete 1 by 1 array. -/
theorem C10_halo_padding_witness :
    (NArray.mk [1, 1] (fun _ => 5)).shape = 1 :: 1 :: [] ∧
    ((update_result_neighbor (NArray.mk [1, 1] (fun _ => 5)) (Recv.mk (fun _ => 7)
        (fun _ => 7) (fun _ => 7) (fun _ => 7))).shape = (1 + 2) :: (1 + 2) :: [] ∧
    (∀ i j idx, i < 1 → j < 1 →
      (update_result_neighbor (NArray.mk [1, 1] (fun _ => 5)) (Recv.mk (fun _ => 7)
        (fun _ => 7) (fun _ => 7) (fun _ => 7))).data ((i + 1) :: (j + 1) :: idx) =
        (NArray.mk [1, 1] (fun _ => 5)).data (i :: j :: idx)) ∧
    (∀ idx, (update_result_neighbor (NArray.mk [1, 1] (fun _ => 5)) (Recv.mk (fun _ => 7)
        (fun _ => 7) (fun _ => 7) (fun _ => 7))).data (0 :: 0 :: idx) = 1 ∧
      (update_result_neighbor (NArray.mk [1, 1] (fun _ => 5)) (Recv.mk (fun _ => 7)
        (fun _ => 7) (fun _ => 7) (fun _ => 7))).data (0 :: (1 + 1) :: idx) = 1 ∧
      (update_result_neighbor (NArray.mk [1, 1] (fun _ => 5)) (Recv.mk (fun _ => 7)
        (fun _ => 7) (fun _ => 7) (fun _ => 7))).data ((1 + 1) :: 0 :: idx) = 1 ∧
      (update_result_neighbor (NArray.mk [1, 1] (fun _ => 5)) (Recv.mk (fun _ => 7)
        (fun _ => 7) (fun _ => 7) (fun _ => 7))).data ((1 + 1) :: (1 + 1) :: idx) = 1)) :=
  ⟨rfl, C10_halo_padding (NArray.mk [1, 1] (fun _ => 5)) (Recv.mk (fun _ => 7)
    (fun _ => 7) (fun _ => 7) (fun _ => 7)) 1 1 [] rfl⟩

end Fabric

namespace Fabric

/-- C5: result-storage shape dispatch.  Storing an ndarray of rank at least two
under a single worker-variable key: leading dims (ni+2, nj+2) store the array
unchanged; leading dims (ni, nj) store the halo-exchanged padded array; any
other leading shape fails with the shape assertion. -/
theorem C5_shape_dispatch (w : Worker) (recv : Recv) (key : String) (a : NArray)
    (s1 s2 : Nat) (rest : List Nat) (hsh : a.shape = s1 :: s2 :: rest) :
    (s1 = w.ni + 2 ∧ s2 = w.nj + 2 →
      update_result w recv (PyVal.array a) (ResultVar.wv key) =
        Except.ok (w.store key a, none)) ∧
    (s1 = w.ni ∧ s2 = w.nj →
      update_result w recv (PyVal.array a) (ResultVar.wv key) =
        Except.ok (w.store key (update_result_neighbor a recv), none)) ∧
    (¬(s1 = w.ni + 2 ∧ s2 = w.nj + 2) → ¬(s1 = w.ni ∧ s2 = w.nj) →
      update_result w recv (PyVal.array a) (ResultVar.wv key) =
        Except.error Err.shapeError) := by
  refine ⟨?_, ?_, ?_⟩
  · intro h
    simp only [update_result, NArray.ndim, hsh, List.length_cons, List.headD_cons,
      List.getD_cons_succ, List.getD_cons_zero]
    rw [if_pos (by omega), if_pos h]
  · intro h
    simp only [update_result, NArray.ndim, hsh, List.length_cons, List.headD_cons,
      List.getD_cons_succ, List.getD_cons_zero]
    rw [if_pos (by omega), if_neg (by omega), if_pos h]
  · intro h1 h2
    simp only [update_result, NArray.ndim, hsh, List.length_cons, List.headD_cons,
      List.getD_cons_succ, List.getD_cons_zero]
    rw [if_pos (by omega), if_neg h1, if_neg h2]

/-- C5 witness: the dispatch theorem applied to the example worker and a
concrete haloed 5 by 5 array. -/
theorem C5_shape_dispatch_witness :
    (NArray.mk [5, 5] (fun _ => 2)).shape = 5 :: 5 :: [] ∧
    (5 = exWorker.ni + 2 ∧ 5 = exWorker.nj + 2 →
      update_result exWorker exRecv (PyVal.array (NArray.mk [5, 5] (fun _ => 2)))
        (ResultVar.wv "k") = Except.ok (exWorker.store "k" (NArray.mk [5, 5] (fun _ => 2)),
          none)) ∧
    (5 = exWorker.ni ∧ 5 = exWorker.nj →
      update_result exWorker exRecv (PyVal.array (NArray.mk [5, 5] (fun _ => 2)))
        (ResultVar.wv "k") = Except.ok (exWorker.store "k"
          (update_result_neighbor (NArray.mk [5, 5] (fun _ => 2)) exRecv), none)) ∧
    (¬(5 = exWorker.ni + 2 ∧ 5 = exWorker.nj + 2) → ¬(5 = exWorker.ni ∧ 5 = exWorker.nj) →
      update_result exWorker exRecv (PyVal.array (NArray.mk [5, 5] (fun _ => 2)))
        (ResultVar.wv "k") = Except.error Err.shapeError) :=
  ⟨rfl, C5_shape_dispatch exWorker exRecv "k" (NArray.mk [5, 5] (fun _ => 2)) 5 5 [] rfl⟩

/-- C9: stored results must be ndarrays of rank at least 2.  Under a single
worker-variable result key, a scalar result, a tuple result, and an ndarray of
rank below two all fail an assertion; a None result key returns the raw result
with the worker untouched. -/
theorem C9_rank_assertions (w : Worker) (recv : Recv) (key : String) :
    (∀ x : Int, update_result w recv (PyVal.scalar x) (ResultVar.wv key) =
      Except.error Err.assertionError) ∧
    (∀ xs : List PyVal, update_result w recv (PyVal.tup xs) (ResultVar.wv key) =
      Except.error Err.assertionError) ∧
    (∀ a : NArray, a.ndim < 2 → update_result w recv (PyVal.array a) (ResultVar.wv key) =
      Except.error Err.assertionError) ∧
    (∀ result : PyVal, update_result w recv result ResultVar.noneVar =
      Except.ok (w, some result)) := by
  refine ⟨?_, ?_, ?_, ?_⟩
  · intro x
    simp [update_result]
  · intro xs
    simp [update_result]
  · intro a ha
    simp only [update_result]
    rw [if_neg (by omega)]
  · intro result
    cases result <;> simp [update_result]

/-- C9 witness: the rank assertions applied to the example worker, a scalar,
and a rank-one array. -/
theorem C9_rank_assertions_witness :
    update_result exWorker exRecv (PyVal.scalar 3) (ResultVar.wv "k") =
      Except.error Err.assertionError ∧
    (NArray.mk [5] (fun _ => 0)).ndim < 2 ∧
    update_result exWorker exRecv (PyVal.array (NArray.mk [5] (fun _ => 0)))
      (ResultVar.wv "k") = Except.error Err.assertionError ∧
    update_result exWorker exRecv (PyVal.scalar 3) ResultVar.noneVar =
      Except.ok (exWorker, some (PyVal.scalar 3)) :=
  ⟨(C9_rank_assertions exWorker exRecv "k").1 3, by decide,
    (C9_rank_assertions exWorker exRecv "k").2.2.1 (NArray.mk [5] (fun _ => 0)) (by decide),
    (C9_rank_assertions exWorker exRecv "k").2.2.2 (PyVal.scalar 3)⟩

/-- C6: _substitute_kwargs as written raises NameError on any non-empty kwargs
mapping (the loop body reads the unbound name arg), so a mapping containing a
worker-variable value is never substituted; only the empty mapping passes
through. -/
theorem C6_substitute_kwargs_bug :
    substitute_kwargs exWorker [("x", PyArg.wv "i")] = Except.error Err.nameError ∧
    substitute_kwargs exWorker ([] : List (String × PyArg)) =
      Except.ok ([] : List (String × PyArg)) :=
  ⟨rfl, rfl⟩

end Fabric

namespace Fabric

/-- Half-even rounding stays within one half of its argument. -/
theorem roundHalfEven_within (x : ℚ) :
    x - 1/2 ≤ (roundHalfEven x : ℚ) ∧ (roundHalfEven x : ℚ) ≤ x + 1/2 := by
  have h1 : (⌊x⌋ : ℚ) ≤ x := Int.floor_le x
  have h2 : x < ⌊x⌋ + 1 := Int.lt_floor_add_one x
  unfold roundHalfEven
  split_ifs with ha hb hc
  · exact ⟨by linarith, by linarith⟩
  · push_cast
    exact ⟨by linarith, by linarith⟩
  · have hx : x - ⌊x⌋ = 1/2 := le_antisymm (not_lt.mp hb) (not_lt.mp ha)
    exact ⟨by linarith, by linarith⟩
  · have hx : x - ⌊x⌋ = 1/2 := le_antisymm (not_lt.mp hb) (not_lt.mp ha)
    push_cast
    exact ⟨by linarith, by linarith⟩

/-- Half-even rounding is monotone. -/
theorem roundHalfEven_mono {x y : ℚ} (hxy : x ≤ y) :
    roundHalfEven x ≤ roundHalfEven y := by
  by_contra hlt
  push_neg at hlt
  have h1 := (roundHalfEven_within x).2
  have h2 := (roundHalfEven_within y).1
  have hc : (roundHalfEven y : ℚ) + 1 ≤ (roundHalfEven x : ℚ) := by
    exact_mod_cast Int.add_one_le_of_lt hlt
  have heq : x = y := le_antisymm hxy (by linarith)
  rw [heq] at hlt
  exact lt_irrefl _ hlt

/-- Half-even rounding fixes the integers. -/
theorem roundHalfEven_intCast (k : ℤ) : roundHalfEven (k : ℚ) = k := by
  unfold roundHalfEven
  rw [Int.floor_intCast]
  rw [if_pos (by rw [sub_self]; norm_num)]

/-- C7: tiling partition.  The range boundaries are round(p ni / NI) for
p = 0 .. NI (conjuncts one to three relate the pair list of _i_ranges to that
formula), the boundary sequence is non-decreasing, starts at 0 and ends at ni,
and the consecutive half-open ranges partition the interval from 0 to ni with
no gap and no overlap: every cell index belongs to exactly one range. -/
theorem C7_tiling_partition (ni NI : Nat) (hni : 1 ≤ ni) (hNI : 1 ≤ NI) :
    (∀ p : Nat, iRangesSeq ni NI p = roundHalfEven ((p * ni : ℚ) / (NI : ℚ))) ∧
    (i_ranges ni NI).length = NI ∧
    (∀ p : Nat, p < NI → (i_ranges ni NI).get? p =
      some (iRangesSeq ni NI p, iRangesSeq ni NI (p + 1))) ∧
    (∀ p q : Nat, p ≤ q → iRangesSeq ni NI p ≤ iRangesSeq ni NI q) ∧
    iRangesSeq ni NI 0 = 0 ∧
    iRangesSeq ni NI NI = (ni : ℤ) ∧
    (∀ m : ℤ, 0 ≤ m → m < (ni : ℤ) →
      ∃! p : Nat, p < NI ∧ iRangesSeq ni NI p ≤ m ∧ m < iRangesSeq ni NI (p + 1)) := by
  have hNIQ : (NI : ℚ) ≠ 0 := Nat.cast_ne_zero.mpr (by omega)
  have hmono : ∀ p q : Nat, p ≤ q → iRangesSeq ni NI p ≤ iRangesSeq ni NI q := by
    intro p q hpq
    apply roundHalfEven_mono
    apply mul_le_mul_of_nonneg_left
    · exact_mod_cast hpq
    · positivity
  have h0 : iRangesSeq ni NI 0 = 0 := by
    unfold iRangesSeq
    rw [Nat.cast_zero, mul_zero]
    exact_mod_cast roundHalfEven_intCast 0
  have hN : iRangesSeq ni NI NI = (ni : ℤ) := by
    unfold iRangesSeq
    rw [div_mul_cancel₀ _ hNIQ]
    exact_mod_cast roundHalfEven_intCast (ni : ℤ)
  refine ⟨?_, ?_, ?_, hmono, h0, hN, ?_⟩
  · intro p
    unfold iRangesSeq
    rw [div_mul_eq_mul_div, mul_comm]
  · simp [i_ranges]
  · intro p hp
    simp only [i_ranges, List.get?_map, List.get?_range hp]
    rfl
  · intro m hm0 hmni
    have hP0 : (fun p => iRangesSeq ni NI p ≤ m) 0 := by
      show iRangesSeq ni NI 0 ≤ m
      rw [h0]
      exact hm0
    have hPNI : ¬ iRangesSeq ni NI NI ≤ m := by rw [hN]; exact not_le.mpr hmni
    have hp0P : iRangesSeq ni NI (Nat.findGreatest (fun p => iRangesSeq ni NI p ≤ m) NI) ≤ m :=
      @Nat.findGreatest_spec 0 (fun p => iRangesSeq ni NI p ≤ m) (fun p => inferInstance) NI
        (Nat.zero_le NI) hP0
    have hp0le : Nat.findGreatest (fun p => iRangesSeq ni NI p ≤ m) NI ≤ NI :=
      Nat.findGreatest_le NI
    have hp0lt : Nat.findGreatest (fun p => iRangesSeq ni NI p ≤ m) NI < NI := by
      rcases lt_or_eq_of_le hp0le with h | h
      · exact h
      · rw [h] at hp0P
        exact absurd hp0P hPNI
    have hnext : ¬ iRangesSeq ni NI
        (Nat.findGreatest (fun p => iRangesSeq ni NI p ≤ m) NI + 1) ≤ m :=
      @Nat.findGreatest_is_greatest
        (Nat.findGreatest (fun p => iRangesSeq ni NI p ≤ m) NI + 1)
        (fun p => iRangesSeq ni NI p ≤ m) (fun p => inferInstance) NI
        (Nat.lt_succ_self _) (by omega)
    set p0 := Nat.findGreatest (fun p => iRangesSeq ni NI p ≤ m) NI with hp0def
    have hnext2 : ¬ iRangesSeq ni NI (p0 + 1) ≤ m := hnext
    refine ⟨p0, ⟨hp0lt, hp0P, not_le.mp hnext2⟩, ?_⟩
    rintro q ⟨hqlt, hq1, hq2⟩
    by_contra hne
    rcases Nat.lt_or_ge q p0 with hql | hqg
    · have hstep : iRangesSeq ni NI (q + 1) ≤ iRangesSeq ni NI p0 := hmono _ _ (by omega)
      have hmm : m < m := lt_of_lt_of_le hq2 (le_trans hstep hp0P)
      exact lt_irrefl _ hmm
    · have hqgt : p0 < q := lt_of_le_of_ne hqg (fun he => hne he.symm)
      have hstep : iRangesSeq ni NI (p0 + 1) ≤ iRangesSeq ni NI q := hmono _ _ (by omega)
      have hmm : m < m := lt_of_lt_of_le (not_le.mp hnext2) (le_trans hstep hq1)
      exact lt_irrefl _ hmm

/-- C7 witness: the tiling partition theorem applied to an 8-cell axis split
over 2 processes. -/
theorem C7_tiling_partition_witness :
    (1 ≤ 8 ∧ 1 ≤ 2) ∧
    ((∀ p : Nat, iRangesSeq 8 2 p = roundHalfEven ((p * 8 : ℚ) / (2 : ℚ))) ∧
    (i_ranges 8 2).length = 2 ∧
    (∀ p : Nat, p < 2 → (i_ranges 8 2).get? p =
      some (iRangesSeq 8 2 p, iRangesSeq 8 2 (p + 1))) ∧
    (∀ p q : Nat, p ≤ q → iRangesSeq 8 2 p ≤ iRangesSeq 8 2 q) ∧
    iRangesSeq 8 2 0 = 0 ∧
    iRangesSeq 8 2 2 = (8 : ℤ) ∧
    (∀ m : ℤ, 0 ≤ m → m < (8 : ℤ) →
      ∃! p : Nat, p < 2 ∧ iRangesSeq 8 2 p ≤ m ∧ m < iRangesSeq 8 2 (p + 1))) :=
  ⟨⟨by decide, by decide⟩, C7_tiling_partition 8 2 (by decide) (by decide)⟩

end Fabric

namespace Enzyme

/-- Transitivity of the list-extension relation. -/
theorem preTrans {α : Type} {l1 l2 l3 : List α} (h1 : l1 <+: l2) (h2 : l2 <+: l3) :
    l1 <+: l3 := h1.trans h2

/-- Discovery only appends: the incoming state lists are prefixes of the
result. -/
theorem discoverLoop_mono (g : DAG n) (srcs : List (Fin n))
    (wl : List (Arg n)) (st : List (Fin n) × List (Fin n)) :
    st.1 <+: (discoverLoop g srcs wl st).1 ∧ st.2 <+: (discoverLoop g srcs wl st).2 := by
  induction wl, st using discoverLoop.induct g srcs with
  | case1 st => simp [discoverLoop]
  | case2 c rest st ih => simpa only [discoverLoop] using ih
  | case3 v rest st hv ih =>
    simpa only [discoverLoop, if_pos hv] using ih
  | case4 v rest st hv ho hmem ih =>
    simpa only [discoverLoop, if_neg hv, ho, if_pos hmem] using ih
  | case5 v rest st hv ho hmem ih =>
    simp only [discoverLoop, if_neg hv, ho, if_neg hmem]
    refine ⟨ih.1, preTrans ?_ ih.2⟩
    exact ⟨[v], rfl⟩
  | case6 v rest st hv op_ ho hmem ih =>
    simpa only [discoverLoop, if_neg hv, ho, dif_pos hmem] using ih
  | case7 v rest st hv op_ ho hmem ih =>
    simp only [discoverLoop, if_neg hv, ho, dif_neg hmem]
    refine ⟨preTrans ?_ ih.1, ih.2⟩
    exact ⟨[v], rfl⟩

/-- Discovery preserves distinctness of the state lists. -/
theorem discoverLoop_nodup (g : DAG n) (srcs : List (Fin n))
    (wl : List (Arg n)) (st : List (Fin n) × List (Fin n)) :
    st.1.Nodup → st.2.Nodup →
      (discoverLoop g srcs wl st).1.Nodup ∧ (discoverLoop g srcs wl st).2.Nodup := by
  induction wl, st using discoverLoop.induct g srcs with
  | case1 st =>
    intro h1 h2
    simp only [discoverLoop]
    exact ⟨h1, h2⟩
  | case2 c rest st ih => simpa only [discoverLoop] using ih
  | case3 v rest st hv ih => simpa only [discoverLoop, if_pos hv] using ih
  | case4 v rest st hv ho hmem ih =>
    simpa only [discoverLoop, if_neg hv, ho, if_pos hmem] using ih
  | case5 v rest st hv ho hmem ih =>
    intro h1 h2
    simp only [discoverLoop, if_neg hv, ho, if_neg hmem]
    exact ih h1 (by simp [List.nodup_append, h2, hmem])
  | case6 v rest st hv op_ ho hmem ih =>
    simpa only [discoverLoop, if_neg hv, ho, dif_pos hmem] using ih
  | case7 v rest st hv op_ ho hmem ih =>
    intro h1 h2
    simp only [discoverLoop, if_neg hv, ho, dif_neg hmem]
    exact ih (by simp [List.nodup_append, h1, hmem]) h2

/-- Discovered internal values are non-sources with an owner; tributary values
are non-sources without an owner. -/
theorem discoverLoop_kinds (g : DAG n) (srcs : List (Fin n))
    (wl : List (Arg n)) (st : List (Fin n) × List (Fin n)) :
    (∀ v ∈ st.1, v ∉ srcs ∧ (g.owner v).isSome) →
    (∀ v ∈ st.2, v ∉ srcs ∧ g.owner v = none) →
      (∀ v ∈ (discoverLoop g srcs wl st).1, v ∉ srcs ∧ (g.owner v).isSome) ∧
      (∀ v ∈ (discoverLoop g srcs wl st).2, v ∉ srcs ∧ g.owner v = none) := by
  induction wl, st using discoverLoop.induct g srcs with
  | case1 st =>
    intro h1 h2
    simp only [discoverLoop]
    exact ⟨h1, h2⟩
  | case2 c rest st ih => simpa only [discoverLoop] using ih
  | case3 v rest st hv ih => simpa only [discoverLoop, if_pos hv] using ih
  | case4 v rest st hv ho hmem ih =>
    simpa only [discoverLoop, if_neg hv, ho, if_pos hmem] using ih
  | case5 v rest st hv ho hmem ih =>
    intro h1 h2
    simp only [discoverLoop, if_neg hv, ho, if_neg hmem]
    refine ih h1 ?_
    intro w hw
    rcases List.mem_append.mp hw with hw | hw
    · exact h2 w hw
    · rcases List.mem_singleton.mp hw with rfl
      exact ⟨hv, ho⟩
  | case6 v rest st hv op_ ho hmem ih =>
    simpa only [discoverLoop, if_neg hv, ho, dif_pos hmem] using ih
  | case7 v rest st hv op_ ho hmem ih =>
    intro h1 h2
    simp only [discoverLoop, if_neg hv, ho, dif_neg hmem]
    refine ih ?_ h2
    intro w hw
    rcases List.mem_append.mp hw with hw | hw
    · exact h1 w hw
    · rcases List.mem_singleton.mp hw with rfl
      exact ⟨hv, by rw [ho]; rfl⟩

/-- Every value referenced from the worklist is handled by the walk: it ends up
a source, a discovered internal value, or a tributary. -/
theorem discoverLoop_handles (g : DAG n) (srcs : List (Fin n))
    (wl : List (Arg n)) (st : List (Fin n) × List (Fin n)) :
    ∀ j : Fin n, Arg.value j ∈ wl →
      j ∈ srcs ∨ j ∈ (discoverLoop g srcs wl st).1 ∨ j ∈ (discoverLoop g srcs wl st).2 := by
  induction wl, st using discoverLoop.induct g srcs with
  | case1 st =>
    intro j hj
    exact absurd hj (List.not_mem_nil _)
  | case2 c rest st ih =>
    intro j hj
    rcases List.mem_cons.mp hj with h | h
    · exact absurd h (by simp)
    · simpa only [discoverLoop] using ih j h
  | case3 v rest st hv ih =>
    intro j hj
    rcases List.mem_cons.mp hj with h | h
    · rcases Arg.value.injEq j v ▸ h with rfl
      · exact Or.inl hv
    · simpa only [discoverLoop, if_pos hv] using ih j h
  | case4 v rest st hv ho hmem ih =>
    intro j hj
    rcases List.mem_cons.mp hj with h | h
    · have hjv : j = v := by simpa using h
      subst hjv
      refine Or.inr (Or.inr ?_)
      have := (discoverLoop_mono g srcs rest st).2
      simp only [discoverLoop, if_neg hv, ho, if_pos hmem]
      exact this.mem hmem
    · simpa only [discoverLoop, if_neg hv, ho, if_pos hmem] using ih j h
  | case5 v rest st hv ho hmem ih =>
    intro j hj
    rcases List.mem_cons.mp hj with h | h
    · have hjv : j = v := by simpa using h
      subst hjv
      refine Or.inr (Or.inr ?_)
      have hpre := (discoverLoop_mono g srcs rest (st.1, st.2 ++ [j])).2
      simp only [discoverLoop, if_neg hv, ho, if_neg hmem]
      exact hpre.mem (by simp)
    · simpa only [discoverLoop, if_neg hv, ho, if_neg hmem] using ih j h
  | case6 v rest st hv op_ ho hmem ih =>
    intro j hj
    rcases List.mem_cons.mp hj with h | h
    · have hjv : j = v := by simpa using h
      subst hjv
      refine Or.inr (Or.inl ?_)
      have := (discoverLoop_mono g srcs rest st).1
      simp only [discoverLoop, if_neg hv, ho, dif_pos hmem]
      exact this.mem hmem
    · simpa only [discoverLoop, if_neg hv, ho, dif_pos hmem] using ih j h
  | case7 v rest st hv op_ ho hmem ih =>
    intro j hj
    rcases List.mem_cons.mp hj with h | h
    · have hjv : j = v := by simpa using h
      subst hjv
      refine Or.inr (Or.inl ?_)
      have hpre := (discoverLoop_mono g srcs (op_.inputs ++ rest) (st.1 ++ [j], st.2)).1
      simp only [discoverLoop, if_neg hv, ho, dif_neg hmem]
      exact hpre.mem (by simp)
    · simpa only [discoverLoop, if_neg hv, ho, dif_neg hmem] using
        ih j (List.mem_append.mpr (Or.inr h))

/-- Closure of the discovered set: provided every already-discovered value has
its inputs handled up to the pending worklist, in the final state every
discovered value has all of its value inputs among the sources, the discovered
values and the tributaries. -/
theorem discoverLoop_closed (g : DAG n) (srcs : List (Fin n))
    (wl : List (Arg n)) (st : List (Fin n) × List (Fin n)) :
    (∀ v ∈ st.1, ∀ op_, g.owner v = some op_ → ∀ j, Arg.value j ∈ op_.inputs →
      j ∈ srcs ∨ j ∈ st.1 ∨ j ∈ st.2 ∨ Arg.value j ∈ wl) →
    ∀ v ∈ (discoverLoop g srcs wl st).1, ∀ op_, g.owner v = some op_ →
      ∀ j, Arg.value j ∈ op_.inputs →
        j ∈ srcs ∨ j ∈ (discoverLoop g srcs wl st).1 ∨ j ∈ (discoverLoop g srcs wl st).2 := by
  induction wl, st using discoverLoop.induct g srcs with
  | case1 st =>
    intro hst
    simp only [discoverLoop]
    intro v hv op_ ho j hj
    rcases hst v hv op_ ho j hj with h | h | h | h
    · exact Or.inl h
    · exact Or.inr (Or.inl h)
    · exact Or.inr (Or.inr h)
    · exact absurd h (List.not_mem_nil _)
  | case2 c rest st ih =>
    intro hst
    simp only [discoverLoop]
    refine ih ?_
    intro v hv op_ ho j hj
    rcases hst v hv op_ ho j hj with h | h | h | h
    · exact Or.inl h
    · exact Or.inr (Or.inl h)
    · exact Or.inr (Or.inr (Or.inl h))
    · rcases List.mem_cons.mp h with h2 | h2
      · exact absurd h2 (by simp)
      · exact Or.inr (Or.inr (Or.inr h2))
  | case3 v rest st hv ih =>
    intro hst
    simp only [discoverLoop, if_pos hv]
    refine ih ?_
    intro w hw op_ ho j hj
    rcases hst w hw op_ ho j hj with h | h | h | h
    · exact Or.inl h
    · exact Or.inr (Or.inl h)
    · exact Or.inr (Or.inr (Or.inl h))
    · rcases List.mem_cons.mp h with h2 | h2
      · have hjv : j = v := by simpa using h2
        exact Or.inl (hjv ▸ hv)
      · exact Or.inr (Or.inr (Or.inr h2))
  | case4 v rest st hv ho hmem ih =>
    intro hst
    simp only [discoverLoop, if_neg hv, ho, if_pos hmem]
    refine ih ?_
    intro w hw op_ ho2 j hj
    rcases hst w hw op_ ho2 j hj with h | h | h | h
    · exact Or.inl h
    · exact Or.inr (Or.inl h)
    · exact Or.inr (Or.inr (Or.inl h))
    · rcases List.mem_cons.mp h with h2 | h2
      · have hjv : j = v := by simpa using h2
        exact Or.inr (Or.inr (Or.inl (hjv ▸ hmem)))
      · exact Or.inr (Or.inr (Or.inr h2))
  | case5 v rest st hv ho hmem ih =>
    intro hst
    simp only [discoverLoop, if_neg hv, ho, if_neg hmem]
    refine ih ?_
    intro w hw op_ ho2 j hj
    rcases hst w hw op_ ho2 j hj with h | h | h | h
    · exact Or.inl h
    · exact Or.inr (Or.inl h)
    · exact Or.inr (Or.inr (Or.inl (List.mem_append.mpr (Or.inl h))))
    · rcases List.mem_cons.mp h with h2 | h2
      · have hjv : j = v := by simpa using h2
        exact Or.inr (Or.inr (Or.inl (List.mem_append.mpr (Or.inr (by simp [hjv])))))
      · exact Or.inr (Or.inr (Or.inr h2))
  | case6 v rest st hv op_ ho hmem ih =>
    intro hst
    simp only [discoverLoop, if_neg hv, ho, dif_pos hmem]
    refine ih ?_
    intro w hw op2 ho2 j hj
    rcases hst w hw op2 ho2 j hj with h | h | h | h
    · exact Or.inl h
    · exact Or.inr (Or.inl h)
    · exact Or.inr (Or.inr (Or.inl h))
    · rcases List.mem_cons.mp h with h2 | h2
      · have hjv : j = v := by simpa using h2
        exact Or.inr (Or.inl (hjv ▸ hmem))
      · exact Or.inr (Or.inr (Or.inr h2))
  | case7 v rest st hv op_ ho hmem ih =>
    intro hst
    simp only [discoverLoop, if_neg hv, ho, dif_neg hmem]
    refine ih ?_
    intro w hw op2 ho2 j hj
    rcases List.mem_append.mp hw with hw1 | hw1
    · -- w was already discovered
      rcases hst w hw1 op2 ho2 j hj with h | h | h | h
      · exact Or.inl h
      · exact Or.inr (Or.inl (List.mem_append.mpr (Or.inl h)))
      · exact Or.inr (Or.inr (Or.inl h))
      · rcases List.mem_cons.mp h with h2 | h2
        · have hjv : j = v := by simpa using h2
          exact Or.inr (Or.inl (List.mem_append.mpr (Or.inr (by simp [hjv]))))
        · exact Or.inr (Or.inr (Or.inr (List.mem_append.mpr (Or.inr h2))))
    · -- w is the newly pushed value v itself
      rcases List.mem_singleton.mp hw1 with rfl
      have hops : op2 = op_ := by
        rw [ho] at ho2
        exact (Option.some.injEq _ _ ▸ ho2).symm
      subst hops
      exact Or.inr (Or.inr (Or.inr (List.mem_append.mpr (Or.inl hj))))

/-- Removing the element at a valid index and putting it in front is a
permutation. -/
theorem perm_get_cons_eraseIdx {α : Type} (l : List α) (i : Nat) (h : i < l.length) :
    (l.get ⟨i, h⟩ :: l.eraseIdx i).Perm l := by
  induction l generalizing i with
  | nil => simp at h
  | cons a tl ih =>
    cases i with
    | zero => simp [List.eraseIdx]
    | succ i =>
      have hi : i < tl.length := by simpa using h
      have := ih i hi
      simpa [List.eraseIdx] using
        List.Perm.trans (List.Perm.swap a (tl.get ⟨i, hi⟩) (tl.eraseIdx i))
          (List.Perm.cons a this)

/-- A sorting pass only appends to the sorted list. -/
theorem sortPassAux_extends (g : DAG n) (srt l : List (Fin n)) (i : Nat) (b : Bool) :
    srt <+: (sortPassAux g srt l i b).1 := by
  induction srt, l, i, b using sortPassAux.induct g with
  | case1 srt l i b h hready ih =>
    rw [sortPassAux, dif_pos h, if_pos hready]
    exact preTrans ⟨[l.get ⟨i, h⟩], rfl⟩ ih
  | case2 srt l i b h hready ih =>
    rw [sortPassAux, dif_pos h, if_neg hready]
    exact ih
  | case3 srt l i b h =>
    rw [sortPassAux, dif_neg h]

/-- A sorting pass permutes the sorted and unsorted lists together. -/
theorem sortPassAux_perm (g : DAG n) (srt l : List (Fin n)) (i : Nat) (b : Bool) :
    ((sortPassAux g srt l i b).1 ++ (sortPassAux g srt l i b).2.1).Perm (srt ++ l) := by
  induction srt, l, i, b using sortPassAux.induct g with
  | case1 srt l i b h hready ih =>
    rw [sortPassAux, dif_pos h, if_pos hready]
    refine List.Perm.trans ih ?_
    have h1 : ((srt ++ [l.get ⟨i, h⟩]) ++ l.eraseIdx i) =
        srt ++ (l.get ⟨i, h⟩ :: l.eraseIdx i) := by
      simp [List.append_assoc]
    rw [h1]
    exact List.Perm.append_left srt (perm_get_cons_eraseIdx l i h)
  | case2 srt l i b h hready ih =>
    rw [sortPassAux, dif_pos h, if_neg hready]
    exact ih
  | case3 srt l i b h =>
    rw [sortPassAux, dif_neg h]

/-- A sorting pass preserves the readiness invariant of the sorted list: from
position m on, every sorted value was ready with respect to the values sorted
before it. -/
theorem sortPassAux_topo (g : DAG n) (m : Nat) (srt l : List (Fin n)) (i : Nat) (b : Bool) :
    m ≤ srt.length →
    (∀ k (hk1 : m ≤ k) (hk2 : k < srt.length), readyB g (srt.take k) (srt.get ⟨k, hk2⟩) = true) →
    m ≤ (sortPassAux g srt l i b).1.length ∧
    (∀ k (hk1 : m ≤ k) (hk2 : k < (sortPassAux g srt l i b).1.length),
      readyB g ((sortPassAux g srt l i b).1.take k)
        ((sortPassAux g srt l i b).1.get ⟨k, hk2⟩) = true) := by
  induction srt, l, i, b using sortPassAux.induct g with
  | case1 srt l i b h hready ih =>
    intro hm hinv
    rw [sortPassAux, dif_pos h, if_pos hready]
    refine ih (by simp; omega) ?_
    intro k hk1 hk2
    rcases Nat.lt_or_ge k srt.length with hlt | hge
    · have hget : (srt ++ [l.get ⟨i, h⟩]).get ⟨k, hk2⟩ = srt.get ⟨k, hlt⟩ := by
        exact List.get_append k hlt
      have htake : (srt ++ [l.get ⟨i, h⟩]).take k = srt.take k := by
        rw [List.take_append_eq_append_take]
        have : k - srt.length = 0 := by omega
        simp [this]
      rw [hget, htake]
      exact hinv k hk1 hlt
    · have hk2' : k < srt.length + 1 := by simpa using hk2
      have hkeq : k = srt.length := by omega
      subst hkeq
      have hget : (srt ++ [l.get ⟨i, h⟩]).get ⟨srt.length, hk2⟩ = l.get ⟨i, h⟩ := by
        simp
      have htake : (srt ++ [l.get ⟨i, h⟩]).take srt.length = srt := by
        rw [List.take_append_eq_append_take]
        simp
      rw [hget, htake]
      exact hready
  | case2 srt l i b h hready ih =>
    intro hm hinv
    rw [sortPassAux, dif_pos h, if_neg hready]
    exact ih hm hinv
  | case3 srt l i b h =>
    intro hm hinv
    rw [sortPassAux, dif_neg h]
    exact ⟨hm, hinv⟩

/-- A successful sort extends the initially sorted list and permutes sorted
plus unsorted. -/
theorem sortLoop_spec (g : DAG n) (fuel : Nat) (srt l out : List (Fin n))
    (h : sortLoop g fuel srt l = some out) :
    srt <+: out ∧ out.Perm (srt ++ l) := by
  induction fuel, srt, l using sortLoop.induct g generalizing out with
  | case1 t srt =>
    rw [sortLoop] at h
    rcases Option.some.injEq _ _ ▸ h with rfl
    · exact ⟨⟨[], List.append_nil _⟩, by simp⟩
  | case2 x head tail =>
    rw [sortLoop] at h
    exact absurd h (by simp)
  | case3 fuel srt v l srt2 l2 heq ih =>
    simp only [sortLoop, heq] at h
    obtain ⟨hpre, hperm⟩ := ih _ h
    have h1 : srt <+: srt2 := by
      have := sortPassAux_extends g srt (v :: l) 0 false
      rwa [heq] at this
    have h2 : (srt2 ++ l2).Perm (srt ++ v :: l) := by
      have := sortPassAux_perm g srt (v :: l) 0 false
      rwa [heq] at this
    exact ⟨preTrans h1 hpre, List.Perm.trans hperm h2⟩
  | case4 fuel srt v l f1 f2 heq =>
    simp only [sortLoop, heq] at h
    exact absurd h (by simp)

/-- A successful sort preserves the readiness invariant from position m on. -/
theorem sortLoop_topo (g : DAG n) (fuel : Nat) (m : Nat) (srt l out : List (Fin n))
    (h : sortLoop g fuel srt l = some out)
    (hm : m ≤ srt.length)
    (hinv : ∀ k (hk1 : m ≤ k) (hk2 : k < srt.length),
      readyB g (srt.take k) (srt.get ⟨k, hk2⟩) = true) :
    m ≤ out.length ∧
    (∀ k (hk1 : m ≤ k) (hk2 : k < out.length),
      readyB g (out.take k) (out.get ⟨k, hk2⟩) = true) := by
  induction fuel, srt, l using sortLoop.induct g generalizing out with
  | case1 t srt =>
    rw [sortLoop] at h
    rcases Option.some.injEq _ _ ▸ h with rfl
    · exact ⟨hm, hinv⟩
  | case2 x head tail =>
    rw [sortLoop] at h
    exact absurd h (by simp)
  | case3 fuel srt v l srt2 l2 heq ih =>
    simp only [sortLoop, heq] at h
    have hpass := sortPassAux_topo g m srt (v :: l) 0 false hm hinv
    rw [heq] at hpass
    exact ih _ h hpass.1 hpass.2
  | case4 fuel srt v l f1 f2 heq =>
    simp only [sortLoop, heq] at h
    exact absurd h (by simp)

/-- Specification of a successfully constructed AtomicStage: the stored source
and sink lists are the given ones, the tributaries are the discovered ones, the
internal list is a permutation of the discovered internal values, and every
internal value was ready with respect to the sources plus the internal values
sorted before it. -/
theorem make_spec (g : DAG n) (S T : List (Fin n)) (st : AtomicStage n)
    (h : AtomicStage.make g S T = some st) :
    st.source_values = S ∧
    st.sink_values = T ∧
    st.triburary_values = (discover_values g S T).2 ∧
    st.sorted_values.Perm (discover_values g S T).1 ∧
    (∀ k (hk : k < st.sorted_values.length),
      readyB g (S ++ st.sorted_values.take k) (st.sorted_values.get ⟨k, hk⟩) = true) := by
  rcases hs : sort_values g S (discover_values g S T).1 with _ | out
  · rw [AtomicStage.make, hs] at h
    exact absurd h (by simp)
  · rw [AtomicStage.make, hs] at h
    have hfields := (Option.some.injEq _ _ ▸ h).symm
    obtain ⟨hpre, hperm⟩ := sortLoop_spec g _ S _ out hs
    have htake : out.take S.length = S := by
      obtain ⟨t, ht⟩ := hpre
      rw [← ht]
      exact List.take_left S t
    have hout : out = S ++ out.drop S.length := by
      conv_lhs => rw [← List.take_append_drop S.length out]
      rw [htake]
    have hdropperm : (out.drop S.length).Perm (discover_values g S T).1 := by
      have hperm2 : (S ++ out.drop S.length).Perm (S ++ (discover_values g S T).1) := by
        rw [← hout]
        exact hperm
      exact (List.perm_append_left_iff S).mp hperm2
    obtain ⟨hml, hinv⟩ := sortLoop_topo g _ S.length S _ out hs (le_refl _)
      (by intro k hk1 hk2; omega)
    subst hfields
    refine ⟨htake, rfl, rfl, hdropperm, ?_⟩
    intro k hk
    simp only []
    have hk2 : S.length + k < out.length := by
      have := List.length_drop S.length out
      simp only [List.length_drop] at hk
      omega
    have hget : out.get ⟨S.length + k, hk2⟩ = (out.drop S.length).get ⟨k, hk⟩ := by
      rw [List.get_drop]
    have htk : out.take (S.length + k) = S ++ (out.drop S.length).take k := by
      conv_lhs => rw [hout]
      rw [List.take_append_eq_append_take]
      congr 1
      · exact List.take_of_length_le (by omega)
      · congr 1
        omega
    have := hinv (S.length + k) (by omega) hk2
    rw [hget, htk] at this
    exact this

/-- mapOpt succeeds when every entry is present. -/
theorem mapOpt_isSome_of_forall {α β : Type} (f : α → Option β) (l : List α)
    (h : ∀ a ∈ l, (f a).isSome) : ∃ r, mapOpt f l = some r := by
  induction l with
  | nil => exact ⟨[], rfl⟩
  | cons a tl ih =>
    obtain ⟨b, hb⟩ := Option.isSome_iff_exists.mp (h a (by simp))
    obtain ⟨r, hr⟩ := ih (fun x hx => h x (by simp [hx]))
    exact ⟨b :: r, by simp [mapOpt, hb, hr]⟩

/-- A successful mapOpt is stable under pointwise extension of the entry map. -/
theorem mapOpt_mono {α β : Type} (f f2 : α → Option β) (l : List α) (r : List β)
    (h : mapOpt f l = some r)
    (hmono : ∀ a ∈ l, ∀ x, f a = some x → f2 a = some x) : mapOpt f2 l = some r := by
  induction l generalizing r with
  | nil => simpa [mapOpt] using h
  | cons a tl ih =>
    rcases hfa : f a with _ | b
    · simp [mapOpt, hfa] at h
    · rcases hrest : mapOpt f tl with _ | rs
      · simp [mapOpt, hfa, hrest] at h
      · simp only [mapOpt, hfa, hrest] at h
        rcases Option.some.injEq _ _ ▸ h with rfl
        · have h2 := hmono a (by simp) b hfa
          have h3 := ih rs hrest (fun x hx => hmono x (by simp [hx]))
          simp [mapOpt, h2, h3]

/-- The output of a successful mapOpt, when every entry agrees with a reference
map, is the plain map of that reference. -/
theorem mapOpt_values {α β : Type} (f : α → Option β) (gf : α → β) (l : List α) (r : List β)
    (h : mapOpt f l = some r)
    (hv : ∀ a ∈ l, ∀ x, f a = some x → x = gf a) : r = l.map gf := by
  induction l generalizing r with
  | nil => simpa [mapOpt] using h
  | cons a tl ih =>
    rcases hfa : f a with _ | b
    · simp [mapOpt, hfa] at h
    · rcases hrest : mapOpt f tl with _ | rs
      · simp [mapOpt, hfa, hrest] at h
      · simp only [mapOpt, hfa, hrest] at h
        rcases Option.some.injEq _ _ ▸ h with rfl
        · have h2 := hv a (by simp) b hfa
          have h3 := ih rs hrest (fun x hx => hv x (by simp [hx]))
          simp [mapOpt, h2, h3]

/-- Specification of the zip-assignment loop: with distinct fresh keys and
matching lengths it succeeds; the produced table holds the positional values
and agrees with the input table elsewhere. -/
theorem assignAll_spec (xs : List (Fin n)) (ys : List Int) (t : Table n)
    (hnd : xs.Nodup) (hfresh : ∀ x ∈ xs, t x = none) (hlen : xs.length = ys.length) :
    ∃ t2, assignAll xs ys t = some t2 ∧
      (∀ v, v ∉ xs → t2 v = t v) ∧
      (∀ k (h1 : k < xs.length) (h2 : k < ys.length),
        t2 (xs.get ⟨k, h1⟩) = some (ys.get ⟨k, h2⟩)) := by
  induction xs generalizing ys t with
  | nil =>
    refine ⟨t, by simp [assignAll], fun v _ => rfl, ?_⟩
    intro k h1
    simp at h1
  | cons x tl ih =>
    rcases ys with _ | ⟨y, ytl⟩
    · simp at hlen
    · have hx : t x = none := hfresh x (by simp)
      have hnodup := List.nodup_cons.mp hnd
      obtain ⟨t2, ht2, hout, hpos⟩ := ih ytl (Function.update t x (some y)) hnodup.2
        (fun w hw => by
          rw [Function.update_apply]
          rw [if_neg (fun he : w = x => hnodup.1 (he ▸ hw))]
          exact hfresh w (by simp [hw]))
        (by simpa using hlen)
      refine ⟨t2, ?_, ?_, ?_⟩
      · rw [assignAll, hx]
        simpa using ht2
      · intro v hv
        have hvx : v ≠ x := fun he => hv (by simp [he])
        have hvtl : v ∉ tl := fun he => hv (by simp [he])
        rw [hout v hvtl, Function.update_apply, if_neg hvx]
      · intro k h1 h2
        cases k with
        | zero =>
          have : t2 x = Function.update t x (some y) x := hout x hnodup.1
          simpa [Function.update_same] using this
        | succ k =>
          exact hpos k (by simpa using h1) (by simpa using h2)

/-- Specification of the evaluation loop of a stage invocation: with distinct,
fresh internal values whose value inputs are all available (already in the
table or computed earlier in the list), evaluation succeeds; the resulting
table binds each internal value to its owner's perform applied to its
substituted inputs and agrees with the input table elsewhere. -/
theorem evalSorted_spec (g : DAG n) (L : List (Fin n)) (t : Table n)
    (hnd : L.Nodup)
    (hfresh : ∀ v ∈ L, t v = none)
    (hready : ∀ k (hk : k < L.length), ∃ op_, g.owner (L.get ⟨k, hk⟩) = some op_ ∧
      ∀ j : Fin n, Arg.value j ∈ op_.inputs → (t j).isSome = true ∨ j ∈ L.take k) :
    ∃ t2, evalSorted g L t = some t2 ∧
      (∀ v, v ∉ L → t2 v = t v) ∧
      (∀ v ∈ L, (t2 v).isSome = true) ∧
      (∀ k (hk : k < L.length), ∃ op_ ins, g.owner (L.get ⟨k, hk⟩) = some op_ ∧
        mapOpt (substInput t2) op_.inputs = some ins ∧
        t2 (L.get ⟨k, hk⟩) = some (op_.perform ins)) := by
  induction L generalizing t with
  | nil =>
    refine ⟨t, rfl, fun v _ => rfl, by simp, ?_⟩
    intro k hk
    simp at hk
  | cons v vs ih =>
    have hnodup := List.nodup_cons.mp hnd
    have hvfresh : t v = none := hfresh v (by simp)
    obtain ⟨op_, hop0, hinp0⟩ := hready 0 (by simp)
    have hop : g.owner v = some op_ := by
      simpa using hop0
    have hinp : ∀ j : Fin n, Arg.value j ∈ op_.inputs → (t j).isSome = true := by
      intro j hj
      rcases hinp0 j hj with h | h
      · exact h
      · simp at h
    have hsub : ∀ a ∈ op_.inputs, (substInput t a).isSome = true := by
      intro a ha
      cases a with
      | value j => exact hinp j ha
      | const c => rfl
    obtain ⟨ins, hins⟩ := mapOpt_isSome_of_forall _ _ hsub
    have hfresh2 : ∀ w ∈ vs, Function.update t v (some (op_.perform ins)) w = none := by
      intro w hw
      rw [Function.update_apply, if_neg (fun he : w = v => hnodup.1 (he ▸ hw))]
      exact hfresh w (by simp [hw])
    have hready2 : ∀ k (hk : k < vs.length), ∃ op2,
        g.owner (vs.get ⟨k, hk⟩) = some op2 ∧
        ∀ j : Fin n, Arg.value j ∈ op2.inputs →
          ((Function.update t v (some (op_.perform ins))) j).isSome = true ∨ j ∈ vs.take k := by
      intro k hk
      obtain ⟨op2, hop2, hinp2⟩ := hready (k + 1) (by simpa using hk)
      refine ⟨op2, by simpa using hop2, ?_⟩
      intro j hj
      rcases hinp2 j hj with h | h
      · left
        rw [Function.update_apply]
        split
        · rfl
        · exact h
      · have h2 : j ∈ v :: vs.take k := by
          simpa using h
        rcases List.mem_cons.mp h2 with h3 | h3
        · left
          rw [h3, Function.update_same]
          rfl
        · right
          exact h3
    obtain ⟨t2, ht2, hout, hsome, hvals⟩ := ih (Function.update t v (some (op_.perform ins)))
      hnodup.2 hfresh2 hready2
    have ht2v : t2 v = some (op_.perform ins) := by
      rw [hout v hnodup.1, Function.update_same]
    have hmono : ∀ a ∈ op_.inputs, ∀ x, substInput t a = some x → substInput t2 a = some x := by
      intro a ha x hx
      cases a with
      | const c => simpa [substInput] using hx
      | value j =>
        simp only [substInput] at hx ⊢
        have hjv : j ≠ v := fun he => by
          rw [he, hvfresh] at hx
          exact Option.noConfusion hx
        have hjvs : j ∉ vs := fun he => by
          have := hfresh2 j he
          rw [Function.update_apply, if_neg hjv] at this
          rw [this] at hx
          exact Option.noConfusion hx
        rw [hout j hjvs, Function.update_apply, if_neg hjv]
        exact hx
    have hins2 : mapOpt (substInput t2) op_.inputs = some ins :=
      mapOpt_mono _ _ _ _ hins hmono
    refine ⟨t2, ?_, ?_, ?_, ?_⟩
    · simp only [evalSorted, hvfresh, Option.isSome_none, Bool.false_eq_true, if_false,
        hop, hins]
      exact ht2
    · intro w hw
      have hwv : w ≠ v := fun he => hw (by simp [he])
      have hwvs : w ∉ vs := fun he => hw (by simp [he])
      rw [hout w hwvs, Function.update_apply, if_neg hwv]
    · intro w hw
      rcases List.mem_cons.mp hw with h | h
      · rw [h, ht2v]
        rfl
      · exact hsome w h
    · intro k hk
      cases k with
      | zero =>
        refine ⟨op_, ins, by simpa using hop, hins2, by simpa using ht2v⟩
      | succ k =>
        obtain ⟨op2, ins2, h1, h2, h3⟩ := hvals k (by simpa using hk)
        exact ⟨op2, ins2, by simpa using h1, h2, by simpa using h3⟩

/-- Collected facts about discover_values: distinctness, ownership kinds,
handledness of the sinks, and closure of the discovered internal set. -/
theorem discover_values_spec (g : DAG n) (srcs sinks : List (Fin n)) :
    (discover_values g srcs sinks).1.Nodup ∧
    (discover_values g srcs sinks).2.Nodup ∧
    (∀ v ∈ (discover_values g srcs sinks).1, v ∉ srcs ∧ (g.owner v).isSome) ∧
    (∀ v ∈ (discover_values g srcs sinks).2, v ∉ srcs ∧ g.owner v = none) ∧
    (∀ v ∈ sinks, v ∈ srcs ∨ v ∈ (discover_values g srcs sinks).1 ∨
      v ∈ (discover_values g srcs sinks).2) ∧
    (∀ v ∈ (discover_values g srcs sinks).1, ∀ op_, g.owner v = some op_ →
      ∀ j, Arg.value j ∈ op_.inputs →
        j ∈ srcs ∨ j ∈ (discover_values g srcs sinks).1 ∨
          j ∈ (discover_values g srcs sinks).2) := by
  obtain ⟨hn1, hn2⟩ := discoverLoop_nodup g srcs (sinks.map Arg.value) ([], [])
    List.nodup_nil List.nodup_nil
  obtain ⟨hk1, hk2⟩ := discoverLoop_kinds g srcs (sinks.map Arg.value) ([], [])
    (by simp) (by simp)
  have hh := discoverLoop_handles g srcs (sinks.map Arg.value) ([], [])
  have hc := discoverLoop_closed g srcs (sinks.map Arg.value) ([], []) (by simp)
  refine ⟨hn1, hn2, hk1, hk2, ?_, hc⟩
  intro v hv
  exact hh v (List.mem_map.mpr ⟨v, hv, rfl⟩)

/-- Assignment of a list of values to their images under a map: every assigned
value reads back its image. -/
theorem assignAll_map (xs : List (Fin n)) (f : Fin n → Int) (t : Table n)
    (hnd : xs.Nodup) (hfresh : ∀ x ∈ xs, t x = none) :
    ∃ t2, assignAll xs (xs.map f) t = some t2 ∧
      (∀ v, v ∉ xs → t2 v = t v) ∧
      (∀ v ∈ xs, t2 v = some (f v)) := by
  obtain ⟨t2, h1, h2, h3⟩ := assignAll_spec xs (xs.map f) t hnd hfresh (by simp)
  refine ⟨t2, h1, h2, ?_⟩
  intro v hv
  obtain ⟨⟨k, hk⟩, hget⟩ := List.mem_iff_get.mp hv
  have h4 := h3 k hk (by simpa using hk)
  rw [hget] at h4
  rw [h4]
  simp only [List.get_map]
  rw [hget]

/-- Assignment distributes over appended key and value lists of matching
length. -/
theorem assignAll_append (xs zs : List (Fin n)) (ys ws : List Int) (t : Table n)
    (hlen : xs.length = ys.length) :
    assignAll (xs ++ zs) (ys ++ ws) t =
      (assignAll xs ys t).bind (fun t2 => assignAll zs ws t2) := by
  induction xs generalizing ys t with
  | nil =>
    rcases ys with _ | ⟨y, ytl⟩
    · simp [assignAll]
    · simp at hlen
  | cons x xtl ih =>
    rcases ys with _ | ⟨y, ytl⟩
    · simp at hlen
    · simp only [List.cons_append, assignAll]
      split
      · simp
      · exact ih ytl (Function.update t x (some y)) (by simpa using hlen)

/-- Full specification of a successful stage invocation: for a stage built by
AtomicStage.make from distinct sources, a call with matching source count
succeeds, and the returned tuple reads the sink entries of a table that binds
each formal source positionally to its concrete value, each tributary to its
resolved value, each internal value to its owner's perform on its substituted
inputs, and nothing else. -/
theorem call_spec (g : DAG n) (S T : List (Fin n)) (st : AtomicStage n)
    (hmk : AtomicStage.make g S T = some st) (hS : S.Nodup)
    (conc : List Int) (trib : Fin n → Int) (hlen : conc.length = S.length) :
    ∃ t2 out, st.call g conc trib = some out ∧
      mapOpt t2 st.sink_values = some out ∧
      (∀ k (h1 : k < S.length) (h2 : k < conc.length),
        t2 (S.get ⟨k, h1⟩) = some (conc.get ⟨k, h2⟩)) ∧
      (∀ v ∈ st.triburary_values, t2 v = some (trib v)) ∧
      (∀ k (hk : k < st.sorted_values.length), ∃ op_ ins,
        g.owner (st.sorted_values.get ⟨k, hk⟩) = some op_ ∧
        mapOpt (substInput t2) op_.inputs = some ins ∧
        t2 (st.sorted_values.get ⟨k, hk⟩) = some (op_.perform ins)) ∧
      (∀ v, v ∉ S → v ∉ st.triburary_values → v ∉ st.sorted_values → t2 v = none) := by
  obtain ⟨hsrc, hsink, htrib, hperm, htopo⟩ := make_spec g S T st hmk
  obtain ⟨hDnd, hBnd, hDk, hBk, hsinks, hclosed⟩ := discover_values_spec g S T
  obtain ⟨t1a, ht1a, hout1a, hpos1a⟩ := assignAll_spec S conc (fun _ => none) hS
    (fun _ _ => rfl) hlen.symm
  have hBfresh : ∀ v ∈ (discover_values g S T).2, t1a v = none := by
    intro v hv
    rw [hout1a v (hBk v hv).1]
  obtain ⟨t1, ht1, hout1, hBval⟩ := assignAll_map (discover_values g S T).2 trib t1a
    hBnd hBfresh
  have htot : assignAll (S ++ (discover_values g S T).2)
      (conc ++ (discover_values g S T).2.map trib) (fun _ => none) = some t1 := by
    rw [assignAll_append S _ conc _ _ hlen.symm, ht1a]
    simpa using ht1
  have hSval : ∀ k (h1 : k < S.length) (h2 : k < conc.length),
      t1 (S.get ⟨k, h1⟩) = some (conc.get ⟨k, h2⟩) := by
    intro k h1 h2
    have hmem : S.get ⟨k, h1⟩ ∈ S := List.get_mem S _ _
    have hnotB : S.get ⟨k, h1⟩ ∉ (discover_values g S T).2 :=
      fun hin => (hBk _ hin).1 hmem
    rw [hout1 _ hnotB]
    exact hpos1a k h1 h2
  have hSsome : ∀ v ∈ S, (t1 v).isSome = true := by
    intro v hv
    obtain ⟨⟨k, hk⟩, hget⟩ := List.mem_iff_get.mp hv
    have hvk := hSval k hk (by omega)
    rw [hget] at hvk
    rw [hvk]
    rfl
  have ht1none : ∀ v, v ∉ S → v ∉ (discover_values g S T).2 → t1 v = none := by
    intro v h1 h2
    rw [hout1 v h2, hout1a v h1]
  have hLnd : st.sorted_values.Nodup := (List.Perm.nodup_iff hperm).mpr hDnd
  have hLD : ∀ v ∈ st.sorted_values, v ∈ (discover_values g S T).1 :=
    fun v hv => hperm.mem_iff.mp hv
  have hDL : ∀ v ∈ (discover_values g S T).1, v ∈ st.sorted_values :=
    fun v hv => hperm.mem_iff.mpr hv
  have hLfresh : ∀ v ∈ st.sorted_values, t1 v = none := by
    intro v hv
    have hvD := hLD v hv
    have hnotB : v ∉ (discover_values g S T).2 := by
      intro hvB
      have h1 := (hDk v hvD).2
      rw [(hBk v hvB).2] at h1
      exact absurd h1 (by simp)
    exact ht1none v (hDk v hvD).1 hnotB
  have hLready : ∀ k (hk : k < st.sorted_values.length), ∃ op_,
      g.owner (st.sorted_values.get ⟨k, hk⟩) = some op_ ∧
      ∀ j : Fin n, Arg.value j ∈ op_.inputs →
        (t1 j).isSome = true ∨ j ∈ st.sorted_values.take k := by
    intro k hk
    have hmemD := hLD _ (List.get_mem st.sorted_values k hk)
    obtain ⟨op_, hop⟩ := Option.isSome_iff_exists.mp (hDk _ hmemD).2
    refine ⟨op_, hop, ?_⟩
    intro j hj
    have hr := htopo k hk
    simp only [readyB, hop] at hr
    have hall := List.all_eq_true.mp hr (Arg.value j) hj
    simp only [is_computable, Bool.or_eq_true, decide_eq_true_eq,
      Option.isNone_iff_eq_none] at hall
    rcases hall with h | h
    · rcases List.mem_append.mp h with h2 | h2
      · exact Or.inl (hSsome j h2)
      · exact Or.inr h2
    · rcases hclosed _ hmemD op_ hop j hj with h2 | h2 | h2
      · exact Or.inl (hSsome j h2)
      · have h3 := (hDk j h2).2
        rw [h] at h3
        exact absurd h3 (by simp)
      · left
        rw [hBval j h2]
        rfl
  obtain ⟨t2, ht2, hout2, hsome2, hvals2⟩ := evalSorted_spec g st.sorted_values t1
    hLnd hLfresh hLready
  have hSfin : ∀ k (h1 : k < S.length) (h2 : k < conc.length),
      t2 (S.get ⟨k, h1⟩) = some (conc.get ⟨k, h2⟩) := by
    intro k h1 h2
    have hmem : S.get ⟨k, h1⟩ ∈ S := List.get_mem S _ _
    have hnotL : S.get ⟨k, h1⟩ ∉ st.sorted_values :=
      fun hin => (hDk _ (hLD _ hin)).1 hmem
    rw [hout2 _ hnotL]
    exact hSval k h1 h2
  have hBfin : ∀ v ∈ (discover_values g S T).2, t2 v = some (trib v) := by
    intro v hv
    have hnotL : v ∉ st.sorted_values := by
      intro hin
      have h1 := (hDk v (hLD v hin)).2
      rw [(hBk v hv).2] at h1
      exact absurd h1 (by simp)
    rw [hout2 v hnotL]
    exact hBval v hv
  have hnonefin : ∀ v, v ∉ S → v ∉ st.triburary_values → v ∉ st.sorted_values →
      t2 v = none := by
    intro v h1 h2 h3
    rw [hout2 v h3]
    refine ht1none v h1 ?_
    rw [← htrib]
    exact h2
  have hsinkSome : ∀ v ∈ st.sink_values, (t2 v).isSome = true := by
    intro v hv
    rw [hsink] at hv
    rcases hsinks v hv with h | h | h
    · have hnotL : v ∉ st.sorted_values := fun hin => (hDk _ (hLD _ hin)).1 h
      rw [hout2 v hnotL]
      exact hSsome v h
    · exact hsome2 v (hDL v h)
    · rw [hBfin v h]
      rfl
  obtain ⟨out, hout⟩ := mapOpt_isSome_of_forall t2 st.sink_values hsinkSome
  refine ⟨t2, out, ?_, hout, hSfin, ?_, hvals2, hnonefin⟩
  · simp only [AtomicStage.call, hsrc, htrib]
    rw [if_pos hlen.symm]
    simp only [htot, ht2, hout]
  · intro v hv
    refine hBfin v ?_
    rw [← htrib]
    exact hv

/-- An unowned value denotes its environment entry. -/
theorem evalDAG_unowned (g : DAG n) (env : Fin n → Int) (v : Fin n)
    (h : g.owner v = none) : evalDAG g env v = env v := by
  rw [evalDAG]
  split
  next heq => rfl
  next op2 heq =>
    rw [h] at heq
    exact Option.noConfusion heq

/-- An owned value denotes its owner's perform on the denoted inputs. -/
theorem evalDAG_owned (g : DAG n) (env : Fin n → Int) (v : Fin n) (op_ : Op n)
    (h : g.owner v = some op_) :
    evalDAG g env v = op_.perform (op_.inputs.map (evalArg g env)) := by
  rw [evalDAG]
  split
  next heq =>
    rw [h] at heq
    exact Option.noConfusion heq
  next op2 heq =>
    rw [h] at heq
    injection heq with heq2
    subst heq2
    congr 1
    rw [← List.attach_map_val op_.inputs (evalArg g env)]
    apply List.map_congr_left
    intro x hx
    rcases x with ⟨a, ha⟩
    cases a <;> rfl

/-- Invoking a stage built from distinct sources on the denotations of its
formal sources, resolving tributaries by the environment, returns exactly the
denotations of its sinks. -/
theorem call_denote (g : DAG n) (S T : List (Fin n)) (st : AtomicStage n)
    (hmk : AtomicStage.make g S T = some st) (hS : S.Nodup) (env : Fin n → Int) :
    st.call g (S.map (evalDAG g env)) env = some (T.map (evalDAG g env)) := by
  obtain ⟨t2, out, hcall, hout, hSfin, hBfin, hvals, hnone⟩ :=
    call_spec g S T st hmk hS (S.map (evalDAG g env)) env (by simp)
  obtain ⟨hsrc, hsink, htrib, hperm, htopo⟩ := make_spec g S T st hmk
  obtain ⟨hDnd, hBnd, hDk, hBk, hsinks, hclosed⟩ := discover_values_spec g S T
  have hval : ∀ N, ∀ v : Fin n, v.val < N → ∀ x, t2 v = some x → x = evalDAG g env v := by
    intro N
    induction N with
    | zero =>
      intro v hv
      omega
    | succ N ihN =>
      intro v hvN x hx
      by_cases hvS : v ∈ S
      · obtain ⟨⟨k, hk⟩, hget⟩ := List.mem_iff_get.mp hvS
        have h1 := hSfin k hk (by simpa using hk)
        rw [hget, hx] at h1
        have h2 : (S.map (evalDAG g env)).get ⟨k, by simpa using hk⟩ =
            evalDAG g env (S.get ⟨k, hk⟩) := by
          simp [List.get_map]
        rw [h2, hget] at h1
        exact Option.some.injEq _ _ ▸ h1
      · by_cases hvB : v ∈ st.triburary_values
        · have h1 := hBfin v hvB
          rw [hx] at h1
          have hB2 : g.owner v = none := (hBk v (by rw [← htrib]; exact hvB)).2
          rw [evalDAG_unowned g env v hB2]
          exact Option.some.injEq _ _ ▸ h1
        · by_cases hvL : v ∈ st.sorted_values
          · obtain ⟨⟨k, hk⟩, hget⟩ := List.mem_iff_get.mp hvL
            obtain ⟨op_, ins, hop, hins, hval2⟩ := hvals k hk
            rw [hget] at hop hval2
            rw [hx] at hval2
            have hinsval : ins = op_.inputs.map (evalArg g env) := by
              apply mapOpt_values _ _ _ _ hins
              intro a ha y hy
              cases a with
              | const c =>
                have h4 : c = y := by simpa [substInput] using hy
                simp [evalArg, h4]
              | value j =>
                simp only [substInput] at hy
                have hjv : j.val < v.val := g.acyclic v op_ hop j ha
                have h3 := ihN j (by omega) y hy
                simpa [evalArg] using h3
            rw [evalDAG_owned g env v op_ hop, ← hinsval]
            exact Option.some.injEq _ _ ▸ hval2
          · have h1 := hnone v hvS hvB hvL
            rw [hx] at h1
            exact Option.noConfusion h1
  have hfinal : out = T.map (evalDAG g env) := by
    have h1 := mapOpt_values t2 (evalDAG g env) st.sink_values out hout
      (fun a _ x hx => hval (a.val + 1) a (by omega) x hx)
    rw [hsink] at h1
    exact h1
  rw [hcall, hfinal]

/-- The vertex list of decompose has distinct entries when the sources do. -/
theorem all_values_nodup (g : DAG n) (S T : List (Fin n)) (hS : S.Nodup) :
    ((discover_values g S T).1 ++ S).Nodup := by
  obtain ⟨hDnd, _, hDk, _, _, _⟩ := discover_values_spec g S T
  rw [List.nodup_append]
  exact ⟨hDnd, hS, fun a ha hb => (hDk a ha).1 hb⟩

/-- Running the middle stages emitted by decompose turns the denotations of the
running sources into the denotations of the final running sources, whatever
stages follow. -/
theorem buildMiddle_run (g : DAG n) (all : List (Fin n)) (c d : Nat → Int)
    (env : Fin n → Int) (restStages : List (AtomicStage n)) :
    ∀ (cnt : Nat) (src : List (Fin n)) (k : Int) (mid : List (AtomicStage n))
      (lastSrc : List (Fin n)),
      buildMiddle g all c d src k cnt = some (mid, lastSrc) →
      src.Nodup → all.Nodup →
      lastSrc.Nodup ∧
      runStages g (mid ++ restStages) (src.map (evalDAG g env)) env =
        runStages g restStages (lastSrc.map (evalDAG g env)) env := by
  intro cnt
  induction cnt with
  | zero =>
    intro src k mid lastSrc h hsrc hall
    simp only [buildMiddle, Option.some.injEq, Prod.mk.injEq] at h
    obtain ⟨h1, h2⟩ := h
    subst h1
    subst h2
    exact ⟨hsrc, rfl⟩
  | succ cnt ih =>
    intro src k mid lastSrc h hsrc hall
    rcases hmk : AtomicStage.make g src (stageFilter all c d k) with _ | st
    · simp only [buildMiddle, hmk] at h
      exact Option.noConfusion h
    · rcases hbm : buildMiddle g all c d (stageFilter all c d k) (k + 1) cnt with _ | ⟨mid2, last2⟩
      · simp only [buildMiddle, hmk, hbm] at h
        exact Option.noConfusion h
      · simp only [buildMiddle, hmk, hbm, Option.some.injEq, Prod.mk.injEq] at h
        obtain ⟨h1, h2⟩ := h
        subst h1
        subst h2
        have hfilnd : (stageFilter all c d k).Nodup := hall.filter _
        obtain ⟨hnd2, hrun2⟩ := ih (stageFilter all c d k) (k + 1) mid2 last2 hbm hfilnd hall
        refine ⟨hnd2, ?_⟩
        have hcd := call_denote g src (stageFilter all c d k) st hmk hsrc env
        simp only [List.cons_append, runStages, hcd]
        exact hrun2

/-- C1: stage closure.  For every stage list produced by decompose over
distinct sources and arbitrary partitioner columns, evaluating the stages
sequentially from the denotations of the sources, piping each stage's output
tuple in as the next stage's concrete sources and resolving tributaries by the
environment, yields exactly the denotations of the sinks computed by a direct
single-pass evaluation of the DAG (evalDAG evaluates each value via its
owner's perform in dependency order), with exact integer arithmetic. -/
theorem C1_stage_closure (g : DAG n) (S T : List (Fin n)) (c d : Nat → Int)
    (env : Fin n → Int) (stages : List (AtomicStage n))
    (hS : S.Nodup) (hdec : decompose g S T c d = some stages) :
    runStages g stages (S.map (evalDAG g env)) env = some (T.map (evalDAG g env)) := by
  simp only [decompose] at hdec
  split at hdec
  · exact absurd hdec (by simp)
  · rcases hbm : buildMiddle g ((discover_values g S T).1 ++ S) c d S 1
        ((colMax d ((discover_values g S T).1 ++ S).length - 1).toNat) with _ | ⟨mid, lastSrc⟩
    · rw [hbm] at hdec
      exact absurd hdec (by simp)
    · rw [hbm] at hdec
      rcases hmk : AtomicStage.make g lastSrc T with _ | stLast
      · simp only [hmk] at hdec
        exact Option.noConfusion hdec
      · simp only [hmk, Option.some.injEq] at hdec
        subst hdec
        obtain ⟨hndLast, hrun⟩ := buildMiddle_run g ((discover_values g S T).1 ++ S) c d env
          [stLast] _ S 1 mid lastSrc hbm hS (all_values_nodup g S T hS)
        rw [hrun]
        have hcd := call_denote g lastSrc T stLast hmk hndLast env
        simp only [runStages, hcd]

/-- C1 witness: the stage closure theorem applied to a one-value DAG whose
single source is also the sink. -/
theorem C1_stage_closure_witness :
    (([(0 : Fin 1)].Nodup ∧
      decompose exDAG1 [0] [0] (fun _ => 1) (fun _ => 1) =
        some [AtomicStage.mk [0] [] [] [0]])) ∧
    runStages exDAG1 [AtomicStage.mk [0] [] [] [0]]
      ([(0 : Fin 1)].map (evalDAG exDAG1 (fun _ => 7))) (fun _ => 7) =
      some ([(0 : Fin 1)].map (evalDAG exDAG1 (fun _ => 7))) :=
  ⟨⟨by decide, by
      simp [decompose, discover_values, discoverLoop, exDAG1, AtomicStage.make,
        sort_values, sortLoop, sortPassAux, buildMiddle, stageFilter, attrOf, colMax,
        readyB, is_computable]⟩,
    C1_stage_closure exDAG1 [0] [0] (fun _ => 1) (fun _ => 1) (fun _ => 7)
      [AtomicStage.mk [0] [] [] [0]] (by decide) (by
      simp [decompose, discover_values, discoverLoop, exDAG1, AtomicStage.make,
        sort_values, sortLoop, sortPassAux, buildMiddle, stageFilter, attrOf, colMax,
        readyB, is_computable])⟩

/-- C3: stage invocation contract.  A call with the wrong number of concrete
sources fails; a call with the right number succeeds and returns the tuple of
symbol-table entries of the sinks in declared order, where the table binds each
formal source to its concrete value, each tributary to its resolved value, and
each internal value, exactly once and in stored topological order, to its
owner's perform applied to its inputs with every value input replaced by its
table entry and every non-value input passed through unchanged. -/
theorem C3_call_contract (g : DAG n) (S T : List (Fin n)) (st : AtomicStage n)
    (hmk : AtomicStage.make g S T = some st) (hS : S.Nodup)
    (conc : List Int) (triburary : Fin n → Int) :
    (conc.length ≠ S.length → st.call g conc triburary = none) ∧
    (conc.length = S.length → ∃ t2 out, st.call g conc triburary = some out ∧
      mapOpt t2 st.sink_values = some out ∧
      (∀ k (h1 : k < S.length) (h2 : k < conc.length),
        t2 (S.get ⟨k, h1⟩) = some (conc.get ⟨k, h2⟩)) ∧
      (∀ v ∈ st.triburary_values, t2 v = some (triburary v)) ∧
      (∀ k (hk : k < st.sorted_values.length), ∃ op_ ins,
        g.owner (st.sorted_values.get ⟨k, hk⟩) = some op_ ∧
        mapOpt (substInput t2) op_.inputs = some ins ∧
        t2 (st.sorted_values.get ⟨k, hk⟩) = some (op_.perform ins))) := by
  constructor
  · intro hne
    have hsrc := (make_spec g S T st hmk).1
    rw [AtomicStage.call, if_neg (by rw [hsrc]; omega)]
  · intro heq
    obtain ⟨t2, out, h1, h2, h3, h4, h5, h6⟩ := call_spec g S T st hmk hS conc triburary heq
    exact ⟨t2, out, h1, h2, h3, h4, h5⟩

/-- C3 witness: the invocation contract applied to the example three-value
DAG's single stage with one concrete source. -/
theorem C3_call_contract_witness :
    (AtomicStage.make exDAG [0] [2] = some (AtomicStage.mk [0] [] [1, 2] [2]) ∧
      ([(0 : Fin 3)] : List (Fin 3)).Nodup) ∧
    (([5] : List Int).length ≠ ([0] : List (Fin 3)).length →
      (AtomicStage.mk [0] [] [1, 2] [2]).call exDAG [5] (fun _ => 0) = none) ∧
    (([5] : List Int).length = ([0] : List (Fin 3)).length →
      ∃ t2 out, (AtomicStage.mk [0] [] [1, 2] [2]).call exDAG [5] (fun _ => 0) = some out ∧
      mapOpt t2 (AtomicStage.mk (n := 3) [0] [] [1, 2] [2]).sink_values = some out ∧
      (∀ k (h1 : k < ([0] : List (Fin 3)).length) (h2 : k < ([5] : List Int).length),
        t2 (([0] : List (Fin 3)).get ⟨k, h1⟩) = some (([5] : List Int).get ⟨k, h2⟩)) ∧
      (∀ v ∈ (AtomicStage.mk (n := 3) [0] [] [1, 2] [2]).triburary_values,
        t2 v = some ((fun _ => (0 : Int)) v)) ∧
      (∀ k (hk : k < (AtomicStage.mk (n := 3) [0] [] [1, 2] [2]).sorted_values.length),
        ∃ op_ ins,
        exDAG.owner ((AtomicStage.mk (n := 3) [0] [] [1, 2] [2]).sorted_values.get
          ⟨k, hk⟩) = some op_ ∧
        mapOpt (substInput t2) op_.inputs = some ins ∧
        t2 ((AtomicStage.mk (n := 3) [0] [] [1, 2] [2]).sorted_values.get ⟨k, hk⟩) =
          some (op_.perform ins))) :=
  ⟨⟨by
      simp [AtomicStage.make, discover_values, discoverLoop, exDAG, sort_values, sortLoop,
        sortPassAux, readyB, is_computable], by decide⟩,
    C3_call_contract exDAG [0] [2] (AtomicStage.mk [0] [] [1, 2] [2]) (by
      simp [AtomicStage.make, discover_values, discoverLoop, exDAG, sort_values, sortLoop,
        sortPassAux, readyB, is_computable]) (by decide) [5] (fun _ => 0)⟩

/-- C4: topological soundness and closure partition.  For a successfully
constructed stage, every value in the stage's closure (reachable from the
sinks without crossing a formal source) is a formal source, a tributary, or
internal, and every internal value's value inputs are formal sources, unowned
values (tributaries), or internal values sorted strictly before it. -/
theorem C4_topological_soundness (g : DAG n) (S T : List (Fin n)) (st : AtomicStage n)
    (hmk : AtomicStage.make g S T = some st) :
    (∀ v : Fin n, InClosure g S T v →
      v ∈ S ∨ v ∈ st.triburary_values ∨ v ∈ st.sorted_values) ∧
    (∀ k (hk : k < st.sorted_values.length), ∀ op_,
      g.owner (st.sorted_values.get ⟨k, hk⟩) = some op_ →
      ∀ j : Fin n, Arg.value j ∈ op_.inputs →
        j ∈ S ∨ g.owner j = none ∨ j ∈ st.sorted_values.take k) := by
  obtain ⟨hsrc, hsink, htrib, hperm, htopo⟩ := make_spec g S T st hmk
  obtain ⟨hDnd, hBnd, hDk, hBk, hsinks, hclosed⟩ := discover_values_spec g S T
  constructor
  · intro v hv
    induction hv with
    | sink w hw =>
      rcases hsinks w hw with h | h | h
      · exact Or.inl h
      · exact Or.inr (Or.inr (hperm.mem_iff.mpr h))
      · exact Or.inr (Or.inl (by rw [htrib]; exact h))
    | step w op_ v2 hclos hwns hop hin ih =>
      rcases ih with h | h | h
      · exact absurd h hwns
      · have h2 := (hBk w (by rw [htrib] at h; exact h)).2
        rw [hop] at h2
        exact Option.noConfusion h2
      · rcases hclosed w (hperm.mem_iff.mp h) op_ hop v2 hin with h2 | h2 | h2
        · exact Or.inl h2
        · exact Or.inr (Or.inr (hperm.mem_iff.mpr h2))
        · exact Or.inr (Or.inl (by rw [htrib]; exact h2))
  · intro k hk op_ hop j hj
    have hr := htopo k hk
    simp only [readyB, hop] at hr
    have hall := List.all_eq_true.mp hr (Arg.value j) hj
    simp only [is_computable, Bool.or_eq_true, decide_eq_true_eq,
      Option.isNone_iff_eq_none] at hall
    rcases hall with h | h
    · rcases List.mem_append.mp h with h2 | h2
      · exact Or.inl h2
      · exact Or.inr (Or.inr h2)
    · exact Or.inr (Or.inl h)

/-- C4 witness: topological soundness applied to the example three-value DAG's
stage from its source to its stencil sink. -/
theorem C4_topological_soundness_witness :
    AtomicStage.make exDAG [0] [2] = some (AtomicStage.mk [0] [] [1, 2] [2]) ∧
    ((∀ v : Fin 3, InClosure exDAG [0] [2] v →
      v ∈ ([0] : List (Fin 3)) ∨ v ∈ (AtomicStage.mk (n := 3) [0] [] [1, 2] [2]).triburary_values ∨
        v ∈ (AtomicStage.mk (n := 3) [0] [] [1, 2] [2]).sorted_values) ∧
    (∀ k (hk : k < (AtomicStage.mk (n := 3) [0] [] [1, 2] [2]).sorted_values.length), ∀ op_,
      exDAG.owner ((AtomicStage.mk (n := 3) [0] [] [1, 2] [2]).sorted_values.get ⟨k, hk⟩) =
        some op_ →
      ∀ j : Fin 3, Arg.value j ∈ op_.inputs →
        j ∈ ([0] : List (Fin 3)) ∨ exDAG.owner j = none ∨
          j ∈ (AtomicStage.mk (n := 3) [0] [] [1, 2] [2]).sorted_values.take k)) :=
  ⟨by
    simp [AtomicStage.make, discover_values, discoverLoop, exDAG, sort_values, sortLoop,
      sortPassAux, readyB, is_computable],
    C4_topological_soundness exDAG [0] [2] (AtomicStage.mk [0] [] [1, 2] [2]) (by
      simp [AtomicStage.make, discover_values, discoverLoop, exDAG, sort_values, sortLoop,
        sortPassAux, readyB, is_computable])⟩

/-- Filtering an enumeration for an absent value gives nothing. -/
theorem enumFrom_filter_not_mem {α : Type} [DecidableEq α] (l : List α) (s : Nat) (v : α)
    (hv : v ∉ l) :
    (List.enumFrom s l).filter (fun p => decide (p.2 = v)) = [] := by
  induction l generalizing s with
  | nil => rfl
  | cons a tl ih =>
    have hav : ¬(a = v) := fun he => hv (by simp [he])
    have h1 := ih (s + 1) (fun he => hv (by simp [he]))
    simp [List.enumFrom, List.filter, hav, h1]

/-- Filtering an enumeration of a distinct list for one of its members keeps
exactly the row of that member. -/
theorem enumFrom_filter_get {α : Type} [DecidableEq α] (l : List α) (s i : Nat)
    (hi : i < l.length) (hnd : l.Nodup) :
    (List.enumFrom s l).filter (fun p => decide (p.2 = l.get ⟨i, hi⟩)) =
      [(s + i, l.get ⟨i, hi⟩)] := by
  induction l generalizing s i with
  | nil => simp at hi
  | cons a tl ih =>
    have hnodup := List.nodup_cons.mp hnd
    cases i with
    | zero =>
      have h1 := enumFrom_filter_not_mem tl (s + 1) a hnodup.1
      simp [List.enumFrom, List.filter, h1]
    | succ i =>
      have hi2 : i < tl.length := by simpa using hi
      have hget : (a :: tl).get ⟨i + 1, hi⟩ = tl.get ⟨i, hi2⟩ := rfl
      have hav : ¬(a = tl.get ⟨i, hi2⟩) :=
        fun he => hnodup.1 (he ▸ List.get_mem tl i hi2)
      have h1 := ih (s + 1) i hi2 hnodup.2
      simp only [List.get_eq_getElem] at hav h1
      simp [List.enumFrom, List.filter, hget, hav, h1, Nat.add_assoc, Nat.add_comm 1 i]

/-- Over a distinct vertex list the stage attributes read back positionally. -/
theorem attrOf_get (all : List (Fin n)) (col : Nat → Int) (hnd : all.Nodup)
    (i : Nat) (hi : i < all.length) :
    attrOf all col (all.get ⟨i, hi⟩) = col i := by
  unfold attrOf
  rw [show all.enum = List.enumFrom 0 all from rfl]
  rw [enumFrom_filter_get all 0 i hi hnd]
  simp

/-- A filter whose predicate agrees with a predicate on the enumerated rows
equals the row filter projected back to the elements. -/
theorem filter_enumFrom_map {α : Type} (l : List α) (s : Nat) (f : α → Bool)
    (pf2 : Nat × α → Bool)
    (hpt : ∀ i (hi : i < l.length), f (l.get ⟨i, hi⟩) = pf2 (s + i, l.get ⟨i, hi⟩)) :
    l.filter f = ((List.enumFrom s l).filter pf2).map Prod.snd := by
  induction l generalizing s with
  | nil => rfl
  | cons a tl ih =>
    have ha : f a = pf2 (s, a) := by
      have h0 := hpt 0 (by simp)
      simpa using h0
    have htl := ih (s + 1) (fun i hi => by
      have h0 := hpt (i + 1) (by simpa using hi)
      simpa [Nat.add_assoc, Nat.add_comm 1 i] using h0)
    simp only [List.enumFrom, List.filter, ha]
    cases hpf : pf2 (s, a) with
    | true => simp [hpf, htl]
    | false => simp [hpf, htl]

/-- The stage-output comprehension of decompose, over a distinct vertex list,
is the positional filter on the partitioner columns. -/
theorem stageFilter_positional (all : List (Fin n)) (c d : Nat → Int) (k : Int)
    (hnd : all.Nodup) :
    stageFilter all c d k =
      ((List.enumFrom 0 all).filter
        (fun p => decide (c p.1 ≤ k) && decide (k < d p.1))).map Prod.snd := by
  unfold stageFilter
  apply filter_enumFrom_map
  intro i hi
  rw [attrOf_get all c hnd i hi, attrOf_get all d hnd i hi]
  simp

/-- Structure of the middle stages emitted by decompose: there are exactly cnt
of them; the stage at offset j is built from the previous running source list
to the boundary filter at k + j, and the final running source list is the last
boundary filter (or the initial sources when cnt is zero). -/
theorem buildMiddle_struct (g : DAG n) (all : List (Fin n)) (c d : Nat → Int) :
    ∀ (cnt : Nat) (src : List (Fin n)) (k : Int) (mid : List (AtomicStage n))
      (lastSrc : List (Fin n)),
      buildMiddle g all c d src k cnt = some (mid, lastSrc) →
      mid.length = cnt ∧
      (∀ j (hj : j < mid.length),
        (mid.get ⟨j, hj⟩).sink_values = stageFilter all c d (k + j)) ∧
      (∀ j (hj : j < mid.length),
        (mid.get ⟨j, hj⟩).source_values =
          if j = 0 then src else stageFilter all c d (k + j - 1)) ∧
      (lastSrc = if cnt = 0 then src else stageFilter all c d (k + cnt - 1)) := by
  intro cnt
  induction cnt with
  | zero =>
    intro src k mid lastSrc h
    simp only [buildMiddle, Option.some.injEq, Prod.mk.injEq] at h
    obtain ⟨h1, h2⟩ := h
    subst h1
    subst h2
    refine ⟨rfl, ?_, ?_, by simp⟩
    · intro j hj
      simp at hj
    · intro j hj
      simp at hj
  | succ cnt ih =>
    intro src k mid lastSrc h
    rcases hmk : AtomicStage.make g src (stageFilter all c d k) with _ | st
    · simp only [buildMiddle, hmk] at h
      exact Option.noConfusion h
    · rcases hbm : buildMiddle g all c d (stageFilter all c d k) (k + 1) cnt with _ | ⟨mid2, last2⟩
      · simp only [buildMiddle, hmk, hbm] at h
        exact Option.noConfusion h
      · simp only [buildMiddle, hmk, hbm, Option.some.injEq, Prod.mk.injEq] at h
        obtain ⟨h1, h2⟩ := h
        subst h1
        obtain ⟨hlen2, hsink2, hsrc2, hlast2⟩ := ih (stageFilter all c d k) (k + 1) mid2 last2 hbm
        obtain ⟨hstsrc, hstsink, htr2, hpm2, htp2⟩ := make_spec g src (stageFilter all c d k) st hmk
        refine ⟨by simp [hlen2], ?_, ?_, ?_⟩
        · intro j hj
          cases j with
          | zero => simpa using hstsink
          | succ j =>
            have hj2 : j < mid2.length := by simpa using hj
            have hs := hsink2 j hj2
            simp only [List.get_cons_succ] at hs ⊢
            rw [hs]
            congr 1
            push_cast
            ring
        · intro j hj
          cases j with
          | zero => simpa using hstsrc
          | succ j =>
            have hj2 : j < mid2.length := by simpa using hj
            have hs := hsrc2 j hj2
            simp only [List.get_cons_succ] at hs ⊢
            rw [hs]
            rw [if_neg (show ¬(j + 1 = 0) by omega)]
            by_cases hj0 : j = 0
            · subst hj0
              rw [if_pos rfl]
              congr 1
              push_cast
              ring
            · rw [if_neg hj0]
              congr 1
              push_cast
              ring
        · rw [← h2, hlast2]
          rw [if_neg (show ¬(cnt + 1 = 0) by omega)]
          by_cases hcnt : cnt = 0
          · subst hcnt
            rw [if_pos rfl]
            congr 1
            push_cast
            ring
          · rw [if_neg hcnt]
            congr 1
            push_cast
            ring

/-- C2 (amended): stage emission rule.  When the partitioner columns give
N = max(d) at least 1, decompose emits exactly N stages; stage 0's formal
sources are the given sources; for every boundary j+1 between consecutive
stages the earlier stage's sink list and the later stage's source list are both
exactly the rows v of A = discovered ++ sources with c[v] <= j+1 < d[v], in the
order of A; and the final stage carries the given sinks.  (When max(d) is less
than 1 the loop body never runs and exactly one stage is emitted, so the
unamended count claim fails; see the counterexample.) -/
theorem C2_stage_emission (g : DAG n) (S T : List (Fin n)) (c d : Nat → Int)
    (stages : List (AtomicStage n)) (hS : S.Nodup)
    (hdec : decompose g S T c d = some stages)
    (hN : 1 ≤ colMax d ((discover_values g S T).1 ++ S).length) :
    stages.length = (colMax d ((discover_values g S T).1 ++ S).length).toNat ∧
    (∀ h0 : 0 < stages.length, (stages.get ⟨0, h0⟩).source_values = S) ∧
    (∀ j (hj : j + 1 < stages.length),
      (stages.get ⟨j, by omega⟩).sink_values =
        ((List.enumFrom 0 ((discover_values g S T).1 ++ S)).filter
          (fun p => decide (c p.1 ≤ (j : Int) + 1) && decide ((j : Int) + 1 < d p.1))).map
          Prod.snd ∧
      (stages.get ⟨j + 1, hj⟩).source_values =
        ((List.enumFrom 0 ((discover_values g S T).1 ++ S)).filter
          (fun p => decide (c p.1 ≤ (j : Int) + 1) && decide ((j : Int) + 1 < d p.1))).map
          Prod.snd) ∧
    (∀ hlast : 0 < stages.length,
      (stages.get ⟨stages.length - 1, by omega⟩).sink_values = T) := by
  have hallnd : ((discover_values g S T).1 ++ S).Nodup := all_values_nodup g S T hS
  simp only [decompose] at hdec
  split at hdec
  · exact absurd hdec (by simp)
  · rcases hbm : buildMiddle g ((discover_values g S T).1 ++ S) c d S 1
        ((colMax d ((discover_values g S T).1 ++ S).length - 1).toNat) with _ | ⟨mid, lastSrc⟩
    · rw [hbm] at hdec
      exact absurd hdec (by simp)
    · rw [hbm] at hdec
      rcases hmk : AtomicStage.make g lastSrc T with _ | stLast
      · simp only [hmk] at hdec
        exact Option.noConfusion hdec
      · simp only [hmk, Option.some.injEq] at hdec
        subst hdec
        obtain ⟨hlen, hsinkm, hsrcm, hlast⟩ := buildMiddle_struct g _ c d _ S 1 mid lastSrc hbm
        obtain ⟨hstsrc, hstsink, _, _, _⟩ := make_spec g lastSrc T stLast hmk
        have hfil : ∀ j : Nat, stageFilter ((discover_values g S T).1 ++ S) c d ((j : Int) + 1) =
            ((List.enumFrom 0 ((discover_values g S T).1 ++ S)).filter
              (fun p => decide (c p.1 ≤ (j : Int) + 1) && decide ((j : Int) + 1 < d p.1))).map
              Prod.snd := fun j =>
          stageFilter_positional _ c d _ hallnd
        have hcnt : (colMax d ((discover_values g S T).1 ++ S).length).toNat =
            (colMax d ((discover_values g S T).1 ++ S).length - 1).toNat + 1 := by
          omega
        have hlen2 : (mid ++ [stLast]).length = mid.length + 1 := by simp
        refine ⟨?_, ?_, ?_, ?_⟩
        · rw [hlen2, hlen]
          omega
        · intro h0
          by_cases hmz : mid.length = 0
          · have hget : ((mid ++ [stLast]).get ⟨0, h0⟩) = stLast :=
              List.get_of_append rfl hmz
            have hls : lastSrc = S := by
              rw [hlast, if_pos]
              omega
            rw [hget, hstsrc, hls]
          · have hj0 : 0 < mid.length := by omega
            have hget : ((mid ++ [stLast]).get ⟨0, h0⟩) = mid.get ⟨0, hj0⟩ :=
              List.get_append 0 hj0
            rw [hget, hsrcm 0 hj0]
            simp
        · intro j hj
          have hjmid : j < mid.length := by omega
          have hget1 : ((mid ++ [stLast]).get ⟨j, by omega⟩) = mid.get ⟨j, hjmid⟩ :=
            List.get_append j hjmid
          constructor
          · rw [hget1, hsinkm j hjmid, ← hfil j]
            congr 1
            ring
          · by_cases hj1 : j + 1 < mid.length
            · have hget2 : ((mid ++ [stLast]).get ⟨j + 1, hj⟩) = mid.get ⟨j + 1, hj1⟩ :=
                List.get_append (j + 1) hj1
              rw [hget2, hsrcm (j + 1) hj1, if_neg (by omega), ← hfil j]
              congr 1
              push_cast
              ring
            · have hj2 : j + 1 = mid.length := by omega
              have hget2 : ((mid ++ [stLast]).get ⟨j + 1, hj⟩) = stLast :=
                List.get_of_append rfl hj2.symm
              rw [hget2, hstsrc, hlast, if_neg (by omega), ← hfil j]
              congr 1
              push_cast
              omega
        · intro hlast0
          have hget : ((mid ++ [stLast]).get ⟨(mid ++ [stLast]).length - 1, by omega⟩) =
              stLast := by
            apply List.get_of_append rfl
            omega
          rw [hget, hstsink]

/-- C2 counterexample: with the all-zero partitioner columns max(d) is 0, yet
decompose emits one stage, so the unconditioned count claim fails. -/
theorem C2_stage_emission_cex :
    decompose exDAG1 [0] [0] (fun _ => 0) (fun _ => 0) =
      some [AtomicStage.mk [0] [] [] [0]] ∧
    colMax (fun _ => 0) ((discover_values exDAG1 [0] [0]).1 ++ [0]).length = 0 := by
  constructor
  · simp [decompose, discover_values, discoverLoop, exDAG1, AtomicStage.make, sort_values,
      sortLoop, sortPassAux, buildMiddle, stageFilter, attrOf, colMax, readyB, is_computable]
  · simp [colMax, discover_values, discoverLoop, exDAG1]

/-- C2 witness: the amended stage emission rule applied to the one-value DAG
with both partitioner columns equal to 1. -/
theorem C2_stage_emission_witness :
    (([(0 : Fin 1)].Nodup ∧
      decompose exDAG1 [0] [0] (fun _ => 1) (fun _ => 1) =
        some [AtomicStage.mk [0] [] [] [0]]) ∧
      1 ≤ colMax (fun _ => (1 : Int)) ((discover_values exDAG1 [0] [0]).1 ++ [0]).length) ∧
    (([AtomicStage.mk (n := 1) [0] [] [] [0]].length =
        (colMax (fun _ => (1 : Int)) ((discover_values exDAG1 [0] [0]).1 ++ [0]).length).toNat) ∧
    (∀ h0 : 0 < [AtomicStage.mk (n := 1) [0] [] [] [0]].length,
      ([AtomicStage.mk (n := 1) [0] [] [] [0]].get ⟨0, h0⟩).source_values = [0]) ∧
    (∀ j (hj : j + 1 < [AtomicStage.mk (n := 1) [0] [] [] [0]].length),
      ([AtomicStage.mk (n := 1) [0] [] [] [0]].get ⟨j, by omega⟩).sink_values =
        ((List.enumFrom 0 ((discover_values exDAG1 [0] [0]).1 ++ [0])).filter
          (fun p => decide ((fun _ => (1 : Int)) p.1 ≤ (j : Int) + 1) &&
            decide ((j : Int) + 1 < (fun _ => (1 : Int)) p.1))).map Prod.snd ∧
      ([AtomicStage.mk (n := 1) [0] [] [] [0]].get ⟨j + 1, hj⟩).source_values =
        ((List.enumFrom 0 ((discover_values exDAG1 [0] [0]).1 ++ [0])).filter
          (fun p => decide ((fun _ => (1 : Int)) p.1 ≤ (j : Int) + 1) &&
            decide ((j : Int) + 1 < (fun _ => (1 : Int)) p.1))).map Prod.snd) ∧
    (∀ hlast : 0 < [AtomicStage.mk (n := 1) [0] [] [] [0]].length,
      ([AtomicStage.mk (n := 1) [0] [] [] [0]].get
        ⟨[AtomicStage.mk (n := 1) [0] [] [] [0]].length - 1, by omega⟩).sink_values = [0])) :=
  ⟨⟨⟨by decide, by
      simp [decompose, discover_values, discoverLoop, exDAG1, AtomicStage.make, sort_values,
        sortLoop, sortPassAux, buildMiddle, stageFilter, attrOf, colMax, readyB,
        is_computable]⟩, by
      simp [colMax, discover_values, discoverLoop, exDAG1]⟩,
    C2_stage_emission exDAG1 [0] [0] (fun _ => 1) (fun _ => 1)
      [AtomicStage.mk [0] [] [] [0]] (by decide) (by
      simp [decompose, discover_values, discoverLoop, exDAG1, AtomicStage.make, sort_values,
        sortLoop, sortPassAux, buildMiddle, stageFilter, attrOf, colMax, readyB,
        is_computable]) (by
      simp [colMax, discover_values, discoverLoop, exDAG1])⟩

/-- A row of an enumeration for each member of the list. -/
theorem mem_enumFrom_get {α : Type} (l : List α) (s i : Nat) (hi : i < l.length) :
    (s + i, l.get ⟨i, hi⟩) ∈ List.enumFrom s l := by
  induction l generalizing s i with
  | nil => simp at hi
  | cons a tl ih =>
    cases i with
    | zero => simp [List.enumFrom]
    | succ i =>
      have hi2 : i < tl.length := by simpa using hi
      have := ih (s + 1) i hi2
      simp only [List.enumFrom, List.mem_cons]
      right
      have harith : s + 1 + i = s + (i + 1) := by omega
      rw [← harith]
      exact this

/-- C8 (amended): after a run of decompose every discovered internal value and
every source value carries the create_stage and discard_stage attributes, and
no other value does; the attributes are never deleted.  (Value shape and owner
stay fixed, and graph building and successful stage invocation delete their
temporaries, but the unamended no-new-attributes claim fails for decompose;
see the counterexample.) -/
theorem C8_decompose_attrs (g : DAG n) (S T : List (Fin n)) (c d : Nat → Int) :
    ∀ v : Fin n, (decomposeAttrs g S T c d v).isSome = true ↔
      v ∈ (discover_values g S T).1 ++ S := by
  intro v
  unfold decomposeAttrs
  rw [show ((discover_values g S T).1 ++ S).enum =
    List.enumFrom 0 ((discover_values g S T).1 ++ S) from rfl]
  constructor
  · intro h
    by_contra hv
    rw [enumFrom_filter_not_mem _ _ _ hv] at h
    simp at h
  · intro hv
    obtain ⟨⟨i, hi⟩, hget⟩ := List.mem_iff_get.mp hv
    have hrow : (0 + i, ((discover_values g S T).1 ++ S).get ⟨i, hi⟩) ∈
        List.enumFrom 0 ((discover_values g S T).1 ++ S) :=
      mem_enumFrom_get _ 0 i hi
    have hmemf : (0 + i, ((discover_values g S T).1 ++ S).get ⟨i, hi⟩) ∈
        (List.enumFrom 0 ((discover_values g S T).1 ++ S)).filter
          (fun p => decide (p.2 = v)) := by
      apply List.mem_filter.mpr
      refine ⟨hrow, ?_⟩
      simp only [List.get_eq_getElem] at hget
      simp [hget]
    have hne : (List.enumFrom 0 ((discover_values g S T).1 ++ S)).filter
        (fun p => decide (p.2 = v)) ≠ [] := List.ne_nil_of_mem hmemf
    obtain ⟨p, hp⟩ := Option.isSome_iff_exists.mp (List.getLast?_isSome.mpr hne)
    rw [hp]
    rfl

/-- C8 counterexample: a complete run of decompose on the one-value DAG leaves
the create_stage and discard_stage attributes on the source value, so the
claim that no attribute survives a complete decompose run fails. -/
theorem C8_decompose_attrs_cex :
    (decompose exDAG1 [0] [0] (fun _ => 0) (fun _ => 1)).isSome = true ∧
    decomposeAttrs exDAG1 [0] [0] (fun _ => 0) (fun _ => 1) 0 = some (0, 1) := by
  constructor
  · simp [decompose, discover_values, discoverLoop, exDAG1, AtomicStage.make, sort_values,
      sortLoop, sortPassAux, buildMiddle, stageFilter, attrOf, colMax, readyB, is_computable]
  · simp [decomposeAttrs, discover_values, discoverLoop, exDAG1]
